import Mathlib

/-!
# Processor registry of the `errors` package

A shallow embedding of `errors.go`: the registry `processors` (a slice of
`*Processor` handles), its four operations `with`, `add`, `remove`, `get`,
and the `Errors` methods `With`, `Use`, `Process`, `ProcessWith` built on them.

Modelling conventions

* A `Processor` is a Go function value.  It is opaque: the only effect of
  calling it that the model records is the call itself, an entry
  `(processor, error)` appended to `World.calls`.  Processors are taken to be
  callable and to return.
* A handle `*Processor` is the address of a memory cell.  The Go heap is a list
  of cells, the address of a cell is its index, allocation appends a cell and
  cells are never freed.
* `error` is `Option Err`, `none` being Go's `nil`.
* A run-time panic (index out of range, slice bounds out of range) is the
  result `none` of an operation that can panic.
* In the sequential model (`World`, `Session`) every operation runs alone and
  the lock of `processors` is left out.
* The lock is part of the model `Sys` of one goroutine that runs `with`, `add`
  or `remove` next to goroutines that run `get`: a schedule picks the goroutine
  that takes the next step, and a step that has to wait for the lock leaves the
  state as it is.
-/

namespace GoErrors

/-- A Processor function value, `type Processor func(error)`, named by a number. -/
abbrev Processor := Nat

/-- A handle `*Processor`: the address of a heap cell that holds a Processor. -/
abbrev Ptr := Nat

/-- A non-nil error value, named by a number. -/
abbrev Err := Nat

/-- The Go interface type `error`; `none` is `nil`. -/
abbrev GoError := Option Err

/-- The Go heap, as far as it holds Processor cells: cell `a` holds `heap[a]`. -/
abbrev Heap := List Processor

/-- Dereference `*p`. -/
def load (heap : Heap) (a : Ptr) : Processor := heap.getD a 0

/-- Assignment `*a = v` to an allocated cell. -/
def store (heap : Heap) (a : Ptr) (v : Processor) : Heap := heap.set a v

/-- Allocate one new cell holding `v`; returns the new heap and the cell's address. -/
def alloc (heap : Heap) (v : Processor) : Heap × Ptr := (heap ++ [v], heap.length)

/-- Allocate the backing array of a slice holding `vs`; returns the new heap and
the address of element 0 (element `i` lives at that address plus `i`). -/
def allocSlice (heap : Heap) (vs : List Processor) : Heap × Ptr := (heap ++ vs, heap.length)

/-- The struct `processors`: `set []*Processor` (the embedded `sync.RWMutex` is
left out of the sequential model). -/
structure processors where
  set : List Ptr
deriving DecidableEq, Repr

/-- The struct `Errors`. -/
structure Errors where
  processors : processors
deriving DecidableEq, Repr

/-- One call of a processor: which function value was called, and with which error. -/
abbrev Call := Processor × Err

/-- The state a program using one `Errors` object runs in: the heap, the
object, and the log of processor calls made so far. -/
structure World where
  heap : Heap
  e : Errors
  calls : List Call
deriving DecidableEq, Repr

/-- The local `hash` of `remove`: a Go `map[*Processor]int`. -/
abbrev IndexMap := Ptr → Option Nat

/-- The map assignment `hash[p] = i`. -/
def IndexMap.put (hash : IndexMap) (p : Ptr) (i : Nat) : IndexMap :=
  fun q => if q = p then some i else hash q

/-- The first loop of `remove`, `for i, p := range ps.set { hash[p] = i }`,
started at index `i` with the part of `ps.set` from index `i` on. -/
def buildHash : List Ptr → Nat → IndexMap → IndexMap
  | [], _, hash => hash
  | p :: rest, i, hash => buildHash rest (i + 1) (hash.put p i)

/-- The second loop of `remove`, `for _, p := range pSet { ... }`, on the
current `hash` and `ps.set`.  `none` is a run-time panic: an index expression
out of range in `ps.set[index] = ps.set[lastIndex]`, or slice bounds out of
range in `ps.set[:lastIndex]`. -/
def removeLoop : List Ptr → IndexMap → List Ptr → Option (List Ptr)
  | [], _, set => some set
  | p :: rest, hash, set =>
    match hash p with
    | none => removeLoop rest hash set
    | some index =>
      let lastIndex : Int := (set.length : Int) - 1
      if (index : Int) ≠ lastIndex then
        if index < set.length ∧ 0 ≤ lastIndex then
          let set1 := set.set index (set.getD lastIndex.toNat 0)
          let hash1 := hash.put (set1.getD index 0) index
          removeLoop rest hash1 (set1.take lastIndex.toNat)
        else none
      else
        if 0 ≤ lastIndex then removeLoop rest hash (set.take lastIndex.toNat)
        else none

/-- The method `(ps *processors) with(pSet ...Processor)`.  The slice `pSet` is
given by the address `base` of its element 0 and its length `n`; the new set
holds `&pSet[i]` for every index `i`. -/
def processors.with_ (_ps : processors) (base : Ptr) (n : Nat) : processors :=
  { set := (List.range n).map (fun i => base + i) }

/-- The method `(ps *processors) add(pSet ...*Processor)`: one `append` per handle. -/
def processors.add (ps : processors) (pSet : List Ptr) : processors :=
  pSet.foldl (fun acc p => { set := acc.set ++ [p] }) ps

/-- The method `(ps *processors) remove(pSet ...*Processor)`; `none` is a panic. -/
def processors.remove (ps : processors) (pSet : List Ptr) : Option processors :=
  (removeLoop pSet (buildHash ps.set 0 (fun _ => none)) ps.set).map (fun set => { set := set })

/-- The method `(ps *processors) get() []Processor`: a new slice holding `*p`
for every handle `p` of `ps.set`, in order. -/
def processors.get (heap : Heap) (ps : processors) : List Processor :=
  ps.set.map (load heap)

/-- The snapshot `e.processors.get()` in a world. -/
def World.get (w : World) : List Processor := w.e.processors.get w.heap

/-- The method `(e *Errors) With(pSet ...Processor)`, called with the
processors as separate arguments: the call allocates the slice `pSet` of the
variadic parameter, and `with` stores the addresses of its elements. -/
def Errors.With (w : World) (pSet : List Processor) : World :=
  let (heap1, base) := allocSlice w.heap pSet
  { w with heap := heap1, e := { processors := w.e.processors.with_ base pSet.length } }

/-- `new(Errors)` in a fresh program: no cells, an empty set, no calls made. -/
def World.new : World := { heap := [], e := { processors := { set := [] } }, calls := [] }

/-- The function `NewErrors(processors ...Processor) *Errors`. -/
def NewErrors (processors : List Processor) : World := Errors.With World.new processors

/-- What `&p` of a `for i, p := range` loop denotes.  Up to Go 1.21 the
variable `p` is one variable for the whole loop (`perLoop`); from language
version 1.22 on every iteration has its own (`perIteration`).  The repository
has no `go.mod` under `src/`; a package without a `go` directive is compiled
with the per-loop rule. -/
inductive LoopVar where
  | perLoop
  | perIteration
deriving DecidableEq, Repr

/-- The loop `for i, p := range processors { pPtrs[i] = &p }` of `Use`:
returns the heap after the loop and the slice `pPtrs`. -/
def usePtrs (sem : LoopVar) (heap : Heap) (processors : List Processor) : Heap × List Ptr :=
  match sem with
  | .perIteration =>
    processors.foldl
      (fun (acc : Heap × List Ptr) v => let (h1, a) := alloc acc.1 v; (h1, acc.2 ++ [a]))
      (heap, [])
  | .perLoop =>
    match processors with
    | [] => (heap, [])
    | v0 :: _ =>
      let (h0, a) := alloc heap v0
      processors.foldl
        (fun (acc : Heap × List Ptr) v => (store acc.1 a v, acc.2 ++ [a]))
        (h0, [])

/-- The method `(e *Errors) Use(processors ...Processor) func()`.  The returned
closure is given by the slice `pPtrs` it captures. -/
def Errors.Use (sem : LoopVar) (w : World) (processors : List Processor) : World × List Ptr :=
  let (heap1, pPtrs) := usePtrs sem w.heap processors
  ({ w with heap := heap1, e := { processors := w.e.processors.add pPtrs } }, pPtrs)

/-- A call of the closure returned by `Use`, `func() { e.processors.remove(pPtrs...) }`;
`none` is a panic. -/
def Errors.revoke (w : World) (pPtrs : List Ptr) : Option World :=
  (w.e.processors.remove pPtrs).map (fun ps => { w with e := { processors := ps } })

/-- The call `p(err)` of a processor. -/
def invoke (w : World) (p : Processor) (err : Err) : World :=
  { w with calls := w.calls ++ [(p, err)] }

/-- The loop `for _, p := range snapshot { p(err) }` of `Process` and `ProcessWith`. -/
def dispatch : List Processor → Err → World → World
  | [], _, w => w
  | p :: rest, err, w => dispatch rest err (invoke w p err)

/-- The method `(e *Errors) Process(err error) error`. -/
def Errors.Process (w : World) (err : GoError) : World × GoError :=
  match err with
  | none => (w, none)
  | some x => (dispatch w.get x w, some x)

/-- The method `(e *Errors) ProcessWith(err error, processors ...Processor) error`. -/
def Errors.ProcessWith (w : World) (err : GoError) (processors : List Processor) :
    World × GoError :=
  match err with
  | none => (w, none)
  | some x => (dispatch processors x w, some x)

/-- One call made by a program that uses the `Errors` object. -/
inductive Op where
  | With (pSet : List Processor)
  | Use (processors : List Processor)
  | Revoke (k : Nat)
deriving DecidableEq, Repr

/-- A program state: the world, and the closures returned by the `Use` calls
made so far, in call order. -/
structure Session where
  w : World
  removers : List (List Ptr)
deriving DecidableEq, Repr

/-- One call.  `Revoke k` calls the closure returned by the `k`-th `Use` call
(counted from 0); where there is no such closure nothing is called.  `none` is
a panic. -/
def Session.step (sem : LoopVar) (s : Session) : Op → Option Session
  | .With pSet => some { s with w := Errors.With s.w pSet }
  | .Use ps =>
    let (w1, pPtrs) := Errors.Use sem s.w ps
    some { w := w1, removers := s.removers ++ [pPtrs] }
  | .Revoke k =>
    match s.removers[k]? with
    | none => some s
    | some pPtrs => (Errors.revoke s.w pPtrs).map (fun w1 => { s with w := w1 })

/-- A sequence of calls, stopping at the first panic. -/
def Session.run (sem : LoopVar) : Session → List Op → Option Session
  | s, [] => some s
  | s, op :: ops => (s.step sem op).bind (fun s1 => Session.run sem s1 ops)

/-- The program `e := NewErrors(init...)` followed by the calls `ops`. -/
def runFrom (sem : LoopVar) (init : List Processor) (ops : List Op) : Option Session :=
  Session.run sem { w := NewErrors init, removers := [] } ops

/-- Every handle of the set is the address of an allocated cell. -/
def World.WF (w : World) : Prop := ∀ a ∈ w.e.processors.set, a < w.heap.length

instance (w : World) : Decidable w.WF := by
  unfold World.WF; infer_instance

/-- One removal of `remove`: entry `i` is overwritten with the last entry and
the slice is cut by one. -/
def swapRemove (set : List Ptr) (i : Nat) : List Ptr :=
  (set.set i (set.getD (set.length - 1) 0)).take (set.length - 1)

/-- The map `hash` holds the index of every entry of `set`. -/
def Indexed (hash : IndexMap) (set : List Ptr) : Prop :=
  ∀ i p, set[i]? = some p → hash p = some i

/-- The map `hash` after one removal at index `i`. -/
def hashAfter (hash : IndexMap) (set : List Ptr) (i : Nat) : IndexMap :=
  if i + 1 = set.length then hash else hash.put (set.getD (set.length - 1) 0) i

/-- The handles of a program state are in order: every handle of the registry
and of the closures is the address of an allocated cell, the handles of the
registry are pairwise distinct, so are the handles of each closure, and no two
closures share a handle. -/
def Session.Distinct (s : Session) : Prop :=
  s.w.WF ∧ s.w.e.processors.set.Nodup
    ∧ (∀ r ∈ s.removers, r.Nodup ∧ ∀ a ∈ r, a < s.w.heap.length)
    ∧ s.removers.Pairwise List.Disjoint

/-- What a processor does to the `Errors` object when it is called: the calls
of `With`, `Use` and of closures returned by `Use` that it makes, in order. -/
abbrev Behaviour := Processor → List Op

/-- The state `s` with the call log replaced. -/
def Session.withCalls (s : Session) (calls : List Call) : Session :=
  { s with w := { s.w with calls := calls } }

/-- The loop `for _, p := range snapshot { p(err) }` of `Process` when the
processors act on the registry: each call is logged and then the processor's
own calls run; `none` is a panic in one of them. -/
def dispatchActing (sem : LoopVar) (beh : Behaviour) :
    List Processor → Err → Session → Option Session
  | [], _, s => some s
  | p :: rest, err, s =>
    (Session.run sem { s with w := invoke s.w p err } (beh p)).bind
      (fun s1 => dispatchActing sem beh rest err s1)

/-- The method `(e *Errors) Process(err error) error` when the processors act
on the registry.  The range expression `e.processors.get()` is evaluated once,
before the first processor is called. -/
def Errors.ProcessActing (sem : LoopVar) (beh : Behaviour) (s : Session) (err : GoError) :
    Option (Session × GoError) :=
  match err with
  | none => some (s, none)
  | some x => (dispatchActing sem beh s.w.get x s).map (fun s1 => (s1, some x))

/-- A statement sequence of `with`, `add` or `remove` that reads and writes
`ps.set`. -/
inductive Effect where
  /-- The statement `ps.set = set` of `with`. -/
  | assign (set : List Ptr)
  /-- The statement `ps.set = append(ps.set, p)` of `add`. -/
  | append (p : Ptr)
  /-- The two loops of `remove`. -/
  | removeAll (pSet : List Ptr)
deriving DecidableEq, Repr

/-- What an effect makes of `ps.set`; `none` is a panic. -/
def Effect.apply : Effect → List Ptr → Option (List Ptr)
  | .assign set, _ => some set
  | .append p, cur => some (cur ++ [p])
  | .removeAll pSet, cur => removeLoop pSet (buildHash cur 0 (fun _ => none)) cur

/-- One step of a goroutine that runs `with`, `add` or `remove`. -/
inductive Instr where
  /-- The call `ps.Lock()`. -/
  | lock
  /-- The call `ps.Unlock()`. -/
  | unlock
  /-- Statements on `ps.set`. -/
  | run (e : Effect)
deriving DecidableEq, Repr

/-- The body of `with` once the local slice `set` is built:
`ps.Lock(); ps.set = set; ps.Unlock()`. -/
def withProg (set : List Ptr) : List Instr := [.lock, .run (.assign set), .unlock]

/-- The body of `add`:
`for _, p := range pSet { ps.Lock(); ps.set = append(ps.set, p); ps.Unlock() }`. -/
def addProg : List Ptr → List Instr
  | [] => []
  | p :: rest => .lock :: .run (.append p) :: .unlock :: addProg rest

/-- The body of `remove`: `ps.Lock()`, the two loops, `ps.Unlock()`. -/
def removeProg (pSet : List Ptr) : List Instr := [.lock, .run (.removeAll pSet), .unlock]

/-- Where a goroutine that runs `get` stands. -/
inductive Reader where
  /-- Before `ps.RLock()`. -/
  | start
  /-- After `ps.RLock()`. -/
  | locked
  /-- After `processors = make([]Processor, len(ps.set))`, of length `n`. -/
  | made (n : Nat)
  /-- After the range expression `ps.set` is evaluated to `hdr`. -/
  | ranging (n : Nat) (hdr : List Ptr)
  /-- After the loop `processors[i] = *p`. -/
  | copied (out : List Processor)
  /-- In the loop, at an index out of range of `processors`. -/
  | failing
  /-- After the deferred `ps.RUnlock()`, with the slice returned. -/
  | returned (out : List Processor)
  /-- After the deferred `ps.RUnlock()`, panicking. -/
  | panicked
deriving DecidableEq, Repr

/-- The loop `for i, p := range hdr { processors[i] = *p }` of `get` on a slice
`processors` of length `n`: it panics at index `n` when `hdr` is longer, and
leaves the zero value in the entries past the length of `hdr`. -/
def Reader.copy (heap : Heap) (n : Nat) (hdr : List Ptr) : Reader :=
  if hdr.length ≤ n then .copied (hdr.map (load heap) ++ List.replicate (n - hdr.length) 0)
  else .failing

/-- One goroutine that runs `with`, `add` or `remove`, and goroutines that run
`get`, on one `processors` value: its field `set`, the state of its
`sync.RWMutex` (write lock held, number of read locks held), what the first
goroutine still has to run, and where each `get` stands. -/
structure Sys where
  set : List Ptr
  writer : Bool
  readers : Nat
  prog : List Instr
  gets : List Reader
deriving DecidableEq, Repr

/-- The goroutine that takes the next step. -/
inductive Tid where
  | mutator
  | getter (j : Nat)
deriving DecidableEq, Repr

/-- One step of the goroutine that runs `with`, `add` or `remove`.  `Lock`
waits while a lock is held.  After a panic the goroutine stops and the lock it
holds stays held. -/
def Sys.stepMutator (s : Sys) : Sys :=
  match s.prog with
  | [] => s
  | .lock :: rest =>
    if s.writer = false ∧ s.readers = 0 then { s with writer := true, prog := rest } else s
  | .unlock :: rest => { s with writer := false, prog := rest }
  | .run e :: rest =>
    match e.apply s.set with
    | some set1 => { s with set := set1, prog := rest }
    | none => { s with prog := [] }

/-- One step of the goroutine `j` that runs `get`.  `RLock` waits while the
write lock is held. -/
def Sys.stepGetter (heap : Heap) (s : Sys) (j : Nat) : Sys :=
  match s.gets[j]? with
  | none => s
  | some .start =>
    if s.writer = false then { s with readers := s.readers + 1, gets := s.gets.set j .locked }
    else s
  | some .locked => { s with gets := s.gets.set j (.made s.set.length) }
  | some (.made n) => { s with gets := s.gets.set j (.ranging n s.set) }
  | some (.ranging n hdr) => { s with gets := s.gets.set j (Reader.copy heap n hdr) }
  | some (.copied out) => { s with readers := s.readers - 1, gets := s.gets.set j (.returned out) }
  | some .failing => { s with readers := s.readers - 1, gets := s.gets.set j .panicked }
  | some (.returned _) => s
  | some .panicked => s

/-- One step of the goroutine chosen. -/
def Sys.step (heap : Heap) (s : Sys) : Tid → Sys
  | .mutator => s.stepMutator
  | .getter j => s.stepGetter heap j

/-- The steps of a schedule, one after the other. -/
def Sys.run (heap : Heap) (s : Sys) (sched : List Tid) : Sys := sched.foldl (Sys.step heap) s

/-- The start: `ps.set` is `old`, no lock is held, one goroutine is about to
run `prog` and `k` goroutines are about to call `get`. -/
def Sys.init (old : List Ptr) (prog : List Instr) (k : Nat) : Sys :=
  { set := old, writer := false, readers := 0, prog := prog, gets := List.replicate k .start }

/-- A program that takes the lock once for each effect. -/
def guarded : List Effect → List Instr
  | [] => []
  | e :: es => .lock :: .run e :: .unlock :: guarded es

/-- The values `ps.set` takes while the effects run one after the other, up to
the first panic. -/
def versions : List Ptr → List Effect → List (List Ptr)
  | set, [] => [set]
  | set, e :: es =>
    set :: (match e.apply set with
      | some set1 => versions set1 es
      | none => [])

/-- The goroutine holds a read lock. -/
def Reader.critical : Reader → Bool
  | .locked => true
  | .made _ => true
  | .ranging _ _ => true
  | .copied _ => true
  | .failing => true
  | _ => false

/-- The number of goroutines that hold a read lock. -/
def critCount : List Reader → Nat
  | [] => 0
  | r :: rs => (if r.critical then 1 else 0) + critCount rs

/-- What a `get` goroutine has read agrees with `set`, and what it returned is
the snapshot of a value `V` allows. -/
def Reader.Ok (V : List Ptr → Prop) (heap : Heap) (set : List Ptr) : Reader → Prop
  | .start => True
  | .locked => True
  | .made n => n = set.length
  | .ranging n hdr => n = set.length ∧ hdr = set
  | .copied out => out = set.map (load heap)
  | .failing => False
  | .returned out => ∃ v, V v ∧ out = v.map (load heap)
  | .panicked => False

/-- Where the mutating goroutine stands, and which values `ps.set` may still take. -/
def Sys.Shape (V : List Ptr → Prop) (s : Sys) : Prop :=
  (∃ es, s.prog = guarded es ∧ s.writer = false ∧ ∀ v ∈ versions s.set es, V v)
  ∨ (∃ e es, s.prog = .run e :: .unlock :: guarded es ∧ s.writer = true ∧ s.readers = 0
      ∧ ∀ v ∈ versions s.set (e :: es), V v)
  ∨ (∃ es, s.prog = .unlock :: guarded es ∧ s.writer = true ∧ s.readers = 0
      ∧ ∀ v ∈ versions s.set es, V v)
  ∨ (s.prog = [] ∧ s.writer = true ∧ s.readers = 0 ∧ V s.set)

/-- The invariant of the lock discipline. -/
structure Sys.Inv (V : List Ptr → Prop) (heap : Heap) (s : Sys) : Prop where
  shape : s.Shape V
  count : s.readers = critCount s.gets
  ok : ∀ (j : Nat) (r : Reader), s.gets[j]? = some r → r.Ok V heap s.set

/-- The number of steps a `get` goroutine still has to take. -/
def Reader.left : Reader → Nat
  | .start => 5
  | .locked => 4
  | .made _ => 3
  | .ranging _ _ => 2
  | .copied _ => 1
  | _ => 0

/-- No effect the mutating goroutine still has to run can panic. -/
def Sys.Total (s : Sys) : Prop :=
  ∀ e, Instr.run e ∈ s.prog → ∀ set, e.apply set ≠ none

/-- The invariant of the lock discipline for a mutating goroutine that cannot
panic, with `k` goroutines running `get`: the write lock is never left held. -/
def Sys.Live (V : List Ptr → Prop) (heap : Heap) (k : Nat) (s : Sys) : Prop :=
  s.Inv V heap ∧ s.Total ∧ ¬ (s.prog = [] ∧ s.writer = true) ∧ s.gets.length = k

/-! ## Dispatch -/

theorem dispatch_eq (ps : List Processor) (x : Err) (w : World) :
    dispatch ps x w = { w with calls := w.calls ++ ps.map (fun p => (p, x)) } := by
  induction ps generalizing w with
  | nil => simp [dispatch]
  | cons p rest ih => simp [dispatch, ih, invoke, List.append_assoc]

/-- C1: for a non-nil error `x`, `Process` calls the processors of the snapshot
`get()`, each once with `x`, in snapshot order, and makes no other call; it
returns `x` itself and leaves the heap and the registry as they were. -/
theorem Process_calls_snapshot (w : World) (x : Err) :
    (Errors.Process w (some x)).1.calls = w.calls ++ w.get.map (fun p => (p, x))
      ∧ (Errors.Process w (some x)).2 = some x
      ∧ (Errors.Process w (some x)).1.heap = w.heap
      ∧ (Errors.Process w (some x)).1.e = w.e := by
  simp [Errors.Process, dispatch_eq]

/-- C2: with a nil error, `Process` and `ProcessWith` return nil and call no
processor, whatever the registry holds and whatever processors are passed. -/
theorem Process_nil_short_circuit (w : World) (ps : List Processor) :
    (Errors.Process w none).2 = none
      ∧ (Errors.Process w none).1.calls = w.calls
      ∧ (Errors.ProcessWith w none ps).2 = none
      ∧ (Errors.ProcessWith w none ps).1.calls = w.calls := by
  simp [Errors.Process, Errors.ProcessWith]

/-- C8: for a non-nil error `x`, `ProcessWith` calls exactly the processors
passed, each once with `x`, in the order given; it returns `x` itself and
leaves the heap and the registry, hence `get()`, as they were. -/
theorem ProcessWith_isolated (w : World) (x : Err) (ps : List Processor) :
    (Errors.ProcessWith w (some x) ps).1.calls = w.calls ++ ps.map (fun p => (p, x))
      ∧ (Errors.ProcessWith w (some x) ps).2 = some x
      ∧ (Errors.ProcessWith w (some x) ps).1.get = w.get
      ∧ (Errors.ProcessWith w (some x) ps).1.heap = w.heap
      ∧ (Errors.ProcessWith w (some x) ps).1.e = w.e := by
  simp [Errors.ProcessWith, dispatch_eq, World.get]

/-! ## Replacing the set -/

theorem load_slice (heap : Heap) (ps : List Processor) :
    ((List.range ps.length).map (fun i => heap.length + i)).map (load (heap ++ ps)) = ps := by
  apply List.ext_getElem
  · simp
  · intro i h1 h2
    simp [load, List.getD_eq_getElem?_getD, List.getElem?_append_right, List.getElem?_eq_getElem h2]

/-- C3: after `With(ps...)` the snapshot `get()` is `ps` (same length, same
order, repetitions kept, nothing of the earlier set left), from any earlier
state; so `NewErrors(ps...)` has snapshot `ps` and `NewErrors()` the empty one. -/
theorem With_get (w : World) (ps : List Processor) :
    (Errors.With w ps).get = ps
      ∧ (NewErrors ps).get = ps
      ∧ (NewErrors []).get = [] := by
  have h : ∀ w : World, (Errors.With w ps).get = ps := by
    intro w
    simp only [Errors.With, allocSlice, World.get, processors.get, processors.with_]
    exact load_slice w.heap ps
  refine ⟨h w, h _, ?_⟩
  simp [NewErrors, Errors.With, allocSlice, World.get, processors.get, processors.with_]

/-! ## Removing handles that are not registered -/

theorem buildHash_absent (set : List Ptr) (i : Nat) (hash : IndexMap) (p : Ptr)
    (hp : p ∉ set) (hh : hash p = none) : buildHash set i hash p = none := by
  induction set generalizing i hash with
  | nil => simpa [buildHash] using hh
  | cons q rest ih =>
    simp only [List.mem_cons, not_or] at hp
    simp only [buildHash]
    apply ih _ _ hp.2
    simp [IndexMap.put, hp.1, hh]

theorem removeLoop_absent (pSet : List Ptr) (hash : IndexMap) (set : List Ptr)
    (h : ∀ p ∈ pSet, hash p = none) : removeLoop pSet hash set = some set := by
  induction pSet with
  | nil => simp [removeLoop]
  | cons p rest ih =>
    have hp : hash p = none := h p (by simp)
    simp only [removeLoop, hp]
    exact ih (fun q hq => h q (by simp [hq]))

/-- C10: when none of the handles passed is in the registry, `remove` does not
panic and leaves the handle list as it was, entry by entry; this holds for the
empty registry too. -/
theorem remove_absent_noop (ps : processors) (pSet : List Ptr)
    (h : ∀ p ∈ pSet, p ∉ ps.set) : ps.remove pSet = some ps := by
  have hl := removeLoop_absent pSet (buildHash ps.set 0 (fun _ => none)) ps.set
    (fun p hp => buildHash_absent ps.set 0 _ p (h p hp) rfl)
  simp [processors.remove, hl]

theorem remove_absent_noop_witness :
    (∀ p ∈ [4, 9, 4], p ∉ (processors.mk [0, 1, 2]).set)
      ∧ (processors.mk [0, 1, 2]).remove [4, 9, 4] = some (processors.mk [0, 1, 2]) :=
  ⟨by decide, remove_absent_noop (processors.mk [0, 1, 2]) [4, 9, 4] (by decide)⟩

/-! ## Registering with `Use`

The handles `Use` registers depend on what `&p` denotes in its range loop.
With one variable per loop all of them are the address of the same cell, which
holds the last processor once the loop is over. -/

theorem add_set (ps : processors) (pSet : List Ptr) : (ps.add pSet).set = ps.set ++ pSet := by
  unfold processors.add
  induction pSet generalizing ps with
  | nil => simp
  | cons p rest ih => simp [ih, List.append_assoc]

theorem usePtrs_perIteration_aux (vs : List Processor) (heap : Heap) (ptrs : List Ptr) :
    vs.foldl (fun (acc : Heap × List Ptr) v => ((alloc acc.1 v).1, acc.2 ++ [(alloc acc.1 v).2]))
        (heap, ptrs)
      = (heap ++ vs, ptrs ++ (List.range vs.length).map (fun i => heap.length + i)) := by
  induction vs generalizing heap ptrs with
  | nil => simp
  | cons v rest ih =>
    rw [List.foldl_cons, ih]
    have hmap : (List.range (v :: rest).length).map (fun i => heap.length + i)
        = heap.length :: (List.range rest.length).map (fun i => (heap ++ [v]).length + i) := by
      rw [List.length_cons, List.range_succ_eq_map, List.map_cons, List.map_map]
      simp only [Nat.add_zero, List.cons.injEq, true_and]
      apply List.map_congr_left
      intro i _
      simp only [Function.comp_apply, List.length_append, List.length_singleton]
      omega
    rw [hmap]
    simp [alloc]

theorem usePtrs_perIteration (heap : Heap) (vs : List Processor) :
    usePtrs .perIteration heap vs
      = (heap ++ vs, (List.range vs.length).map (fun i => heap.length + i)) := by
  have h := usePtrs_perIteration_aux vs heap []
  simpa [usePtrs] using h

theorem store_last (heap : Heap) (x v : Processor) :
    store (heap ++ [x]) heap.length v = heap ++ [v] := by
  simp [store, List.set_append]

theorem usePtrs_perLoop_aux (vs : List Processor) (heap : Heap) (x : Processor)
    (ptrs : List Ptr) :
    vs.foldl (fun (acc : Heap × List Ptr) v => (store acc.1 heap.length v, acc.2 ++ [heap.length]))
        (heap ++ [x], ptrs)
      = (heap ++ [vs.getLastD x], ptrs ++ List.replicate vs.length heap.length) := by
  induction vs generalizing x ptrs with
  | nil => simp
  | cons v rest ih =>
    rw [List.foldl_cons, store_last, ih, List.getLastD_cons]
    simp [List.replicate_succ]

theorem usePtrs_perLoop (heap : Heap) (v0 : Processor) (rest : List Processor) :
    usePtrs .perLoop heap (v0 :: rest)
      = (heap ++ [rest.getLastD v0], List.replicate (rest.length + 1) heap.length) := by
  have h := usePtrs_perLoop_aux (v0 :: rest) heap v0 []
  rw [List.getLastD_cons] at h
  simp only [usePtrs, alloc]
  rw [h]
  simp

theorem load_append_left (heap more : Heap) (a : Ptr) (h : a < heap.length) :
    load (heap ++ more) a = load heap a := by
  simp [load, List.getD_eq_getElem?_getD, List.getElem?_append_left h]

theorem get_append_heap (w : World) (hw : w.WF) (more : Heap) :
    w.e.processors.set.map (load (w.heap ++ more)) = w.get := by
  simp only [World.get, processors.get]
  apply List.map_congr_left
  intro a ha
  exact load_append_left _ _ _ (hw a ha)

/-- With one variable per iteration, `Use(ps...)` appends the processors given
to the snapshot, in order. -/
theorem Use_get_perIteration (w : World) (hw : w.WF) (ps : List Processor) :
    (Errors.Use .perIteration w ps).1.get = w.get ++ ps := by
  simp only [Errors.Use, usePtrs_perIteration, World.get, processors.get, add_set,
    List.map_append]
  rw [load_slice, get_append_heap w hw]
  rfl

/-- With one variable per loop, `Use(v0, rest...)` appends as many entries as
processors were given, all of them the last processor given. -/
theorem Use_get_perLoop (w : World) (hw : w.WF) (v0 : Processor) (rest : List Processor) :
    (Errors.Use .perLoop w (v0 :: rest)).1.get
      = w.get ++ List.replicate (rest.length + 1) (rest.getLastD v0) := by
  simp only [Errors.Use, usePtrs_perLoop, World.get, processors.get, add_set, List.map_append]
  rw [get_append_heap w hw]
  simp [World.get, processors.get, load, List.getD_eq_getElem?_getD]

/-- `Use` with no processor, under either rule, changes nothing. -/
theorem Use_nil (sem : LoopVar) (w : World) : Errors.Use sem w [] = (w, []) := by
  cases sem <;> simp [Errors.Use, usePtrs, processors.add]

/-- `Use(p)` with a single processor, under either rule, appends `p` to the snapshot. -/
theorem Use_get_single (sem : LoopVar) (w : World) (hw : w.WF) (p : Processor) :
    (Errors.Use sem w [p]).1.get = w.get ++ [p] := by
  cases sem
  · simpa using Use_get_perLoop w hw p []
  · exact Use_get_perIteration w hw [p]

/-- C4: the code at `e := NewErrors(10); e.Use(1, 2)` with one loop variable per
loop: the snapshot is `[10, 2, 2]`, not `[10, 1, 2]`, and a following
`Process` with a non-nil error calls processor 2 twice and processor 1 never. -/
theorem Use_registers_last_processor_for_all :
    (Errors.Use .perLoop (NewErrors [10]) [1, 2]).1.get = [10, 2, 2]
      ∧ (Errors.Use .perLoop (NewErrors [10]) [1, 2]).2 = [1, 1]
      ∧ (Errors.Process (Errors.Use .perLoop (NewErrors [10]) [1, 2]).1 (some 7)).1.calls
          = [(10, 7), (2, 7), (2, 7)] := by
  decide

/-! ## Revoking -/

theorem Use_single (sem : LoopVar) (w : World) (p : Processor) :
    Errors.Use sem w [p]
      = ({ w with heap := w.heap ++ [p],
                  e := { processors := { set := w.e.processors.set ++ [w.heap.length] } } },
         [w.heap.length]) := by
  cases sem <;> simp [Errors.Use, usePtrs, processors.add, alloc, store, List.set_append]

theorem buildHash_append_last (s : List Ptr) (a : Ptr) (i : Nat) (hash : IndexMap) :
    buildHash (s ++ [a]) i hash a = some (i + s.length) := by
  induction s generalizing i hash with
  | nil => simp [buildHash, IndexMap.put]
  | cons q rest ih =>
    rw [List.cons_append, buildHash, ih, List.length_cons, Nat.add_assoc, Nat.add_comm 1]

theorem remove_last_added (set : List Ptr) (a : Ptr) :
    processors.remove { set := set ++ [a] } [a] = some { set := set } := by
  have hh := buildHash_append_last set a 0 (fun _ => none)
  simp only [Nat.zero_add] at hh
  simp [processors.remove, removeLoop, hh]

/-- `Use(p)` with a single processor followed by a call of the closure it
returned, under either rule: no panic, the registry is the one before the
`Use` call and so is the snapshot. -/
theorem Use_revoke_single (sem : LoopVar) (w : World) (hw : w.WF) (p : Processor) :
    ∃ w1, Errors.revoke (Errors.Use sem w [p]).1 (Errors.Use sem w [p]).2 = some w1
      ∧ w1.e = w.e ∧ w1.get = w.get := by
  rw [Use_single]
  refine ⟨{ w with heap := w.heap ++ [p] }, ?_, rfl, get_append_heap w hw [p]⟩
  simp [Errors.revoke, remove_last_added]

/-- C5: the code at `e := NewErrors(10); remove := e.Use(1, 2); remove()` with
one loop variable per loop: the call of `remove` panics.  With a single
processor, `e.Use(1)`, the same program restores the snapshot `[10]`. -/
theorem Use_two_then_revoke_panics :
    Errors.revoke (Errors.Use .perLoop (NewErrors [10]) [1, 2]).1
        (Errors.Use .perLoop (NewErrors [10]) [1, 2]).2 = none
      ∧ runFrom .perLoop [10] [.Use [1, 2], .Revoke 0] = none
      ∧ (runFrom .perLoop [10] [.Use [1], .Revoke 0]).map (fun s => s.w.get) = some [10] := by
  decide

/-- C6: the code at `e := NewErrors(); r0 := e.Use(1, 2); r1 := e.Use(3);
r2 := e.Use(4); r0()` with one loop variable per loop: before `r0()` the
snapshot is `[2, 2, 3, 4]`, after it `[2, 3]`.  Processor 4, registered by
another `Use` call whose closure was never called, is gone; an entry added by
the revoked call is still there. -/
theorem revoke_removes_entry_of_other_Use :
    (runFrom .perLoop [] [.Use [1, 2], .Use [3], .Use [4]]).map (fun s => s.w.get)
        = some [2, 2, 3, 4]
      ∧ (runFrom .perLoop [] [.Use [1, 2], .Use [3], .Use [4], .Revoke 0]).map
          (fun s => s.w.get) = some [2, 3] := by
  decide

/-- C7: the code with one loop variable per loop.  After
`r0 := e.Use(1, 2); r1 := e.Use(3); r2 := e.Use(4); r0()` the snapshot is
`[2, 3]` and a second `r0()` changes it to `[]`.  After
`r0 := e.Use(1, 2); r1 := e.Use(3); r0()` the snapshot is `[2]` and a second
`r0()` panics. -/
theorem second_revoke_not_noop :
    (runFrom .perLoop [] [.Use [1, 2], .Use [3], .Use [4], .Revoke 0]).map
        (fun s => s.w.get) = some [2, 3]
      ∧ (runFrom .perLoop [] [.Use [1, 2], .Use [3], .Use [4], .Revoke 0, .Revoke 0]).map
          (fun s => s.w.get) = some []
      ∧ (runFrom .perLoop [] [.Use [1, 2], .Use [3], .Revoke 0]).map
          (fun s => s.w.get) = some [2]
      ∧ runFrom .perLoop [] [.Use [1, 2], .Use [3], .Revoke 0, .Revoke 0] = none := by
  decide

/-- C9: `remove` at a handle listed twice.  On the set `[0]` the call
`remove(0, 0)` panics; so does `remove(0, 0)` on the set `[0, 0]`, which is the
call the closure of `NewErrors().Use(1, 2)` makes with one loop variable per
loop.  On the set `[0, 1, 2]` the call `remove(0, 0)` returns `[1]`: the entry
2, whose handle was not passed, is removed. -/
theorem remove_repeated_handle :
    processors.remove { set := [0] } [0, 0] = none
      ∧ (Errors.Use .perLoop (NewErrors []) [1, 2]).1.e.processors = { set := [0, 0] }
      ∧ (Errors.Use .perLoop (NewErrors []) [1, 2]).2 = [0, 0]
      ∧ processors.remove { set := [0, 0] } [0, 0] = none
      ∧ processors.remove { set := [0, 1, 2] } [0, 0] = some { set := [1] } := by
  decide

/-! ## Removal on pairwise distinct handles -/

theorem take_set_of_le (l : List Ptr) (a : Ptr) (n m : Nat) (h : m ≤ n) :
    (l.set n a).take m = l.take m := by
  apply List.ext_getElem?
  intro k
  rw [List.getElem?_take, List.getElem?_take]
  split
  · rw [List.getElem?_set_ne (by omega)]
  · rfl

theorem removeLoop_cons_none (p : Ptr) (rest : List Ptr) (hash : IndexMap) (set : List Ptr)
    (hp : hash p = none) : removeLoop (p :: rest) hash set = removeLoop rest hash set := by
  simp [removeLoop, hp]

theorem removeLoop_cons_last (p : Ptr) (rest : List Ptr) (hash : IndexMap) (set : List Ptr)
    (i : Nat) (hp : hash p = some i) (hi : i + 1 = set.length) :
    removeLoop (p :: rest) hash set = removeLoop rest hash (swapRemove set i) := by
  have h1 : (i : Int) = (set.length : Int) - 1 := by omega
  have h2 : (0 : Int) ≤ (set.length : Int) - 1 := by omega
  have h3 : ((set.length : Int) - 1).toNat = set.length - 1 := by omega
  have h4 : set.length - 1 = i := by omega
  simp only [removeLoop, hp, h1, ne_eq, not_true_eq_false, if_false, h2, if_true, h3,
    swapRemove]
  rw [h4, take_set_of_le _ _ _ _ (Nat.le_refl i)]

theorem removeLoop_cons_swap (p : Ptr) (rest : List Ptr) (hash : IndexMap) (set : List Ptr)
    (i : Nat) (hp : hash p = some i) (hi : i + 1 < set.length) :
    removeLoop (p :: rest) hash set
      = removeLoop rest (hash.put (set.getD (set.length - 1) 0) i) (swapRemove set i) := by
  have h1 : (i : Int) ≠ (set.length : Int) - 1 := by omega
  have h2 : i < set.length ∧ (0 : Int) ≤ (set.length : Int) - 1 := ⟨by omega, by omega⟩
  have h3 : ((set.length : Int) - 1).toNat = set.length - 1 := by omega
  have h5 : (set.set i (set.getD (set.length - 1) 0)).getD i 0 = set.getD (set.length - 1) 0 := by
    simp [List.getD_eq_getElem?_getD, List.getElem?_set, h2.1]
  simp only [removeLoop, hp, ne_eq, h1, not_false_eq_true, if_true, h2, and_self, h3, h5,
    swapRemove]

theorem removeLoop_cons_panic (p : Ptr) (rest : List Ptr) (hash : IndexMap) (set : List Ptr)
    (i : Nat) (hp : hash p = some i) (hi : set.length ≤ i) :
    removeLoop (p :: rest) hash set = none := by
  have h1 : (i : Int) ≠ (set.length : Int) - 1 := by omega
  have h2 : ¬ (i < set.length ∧ (0 : Int) ≤ (set.length : Int) - 1) := by omega
  simp only [removeLoop, hp, ne_eq, h1, not_false_eq_true, if_true, h2, if_false]

theorem Indexed.index_eq {hash : IndexMap} {set : List Ptr} (h : Indexed hash set)
    {i j : Nat} {p : Ptr} (hi : set[i]? = some p) (hj : set[j]? = some p) : i = j := by
  have h1 := h i p hi
  have h2 := h j p hj
  rw [h1] at h2
  exact Option.some.inj h2

theorem Indexed.nodup {hash : IndexMap} {set : List Ptr} (h : Indexed hash set) :
    set.Nodup := by
  rw [List.nodup_iff_getElem?_ne_getElem?]
  intro i j hij hj heq
  have hi : i < set.length := by omega
  have h1 : set[i]? = some set[i] := List.getElem?_eq_getElem hi
  have h2 : set[j]? = some set[i] := by rw [← heq]; exact h1
  have := h.index_eq h1 h2
  omega

theorem Indexed.of_mem {hash : IndexMap} {set : List Ptr} (h : Indexed hash set)
    {p : Ptr} (hp : p ∈ set) : ∃ i, set[i]? = some p ∧ hash p = some i := by
  obtain ⟨i, hi⟩ := List.mem_iff_getElem?.mp hp
  exact ⟨i, hi, h i p hi⟩

theorem getD_last (set : List Ptr) (h : 0 < set.length) :
    some (set.getD (set.length - 1) 0) = set[set.length - 1]? := by
  have h1 : set.length - 1 < set.length := by omega
  simp [List.getD_eq_getElem?_getD, List.getElem?_eq_getElem h1]

theorem getElem?_swapRemove (set : List Ptr) (i k : Nat) (hi : i < set.length) :
    (swapRemove set i)[k]?
      = if k < set.length - 1 then (if k = i then set[set.length - 1]? else set[k]?)
        else none := by
  unfold swapRemove
  rw [List.getElem?_take, List.getElem?_set]
  by_cases hk : k < set.length - 1
  · simp only [hk, if_true]
    by_cases hki : k = i
    · subst hki
      simp only [if_true, hi]
      exact getD_last set (by omega)
    · have : ¬ i = k := fun h => hki h.symm
      simp only [this, hki, if_false]
  · simp only [hk, if_false]

theorem mem_swapRemove {hash : IndexMap} {set : List Ptr} (h : Indexed hash set)
    {i : Nat} {p : Ptr} (hi : set[i]? = some p) (a : Ptr) :
    a ∈ swapRemove set i ↔ a ∈ set ∧ a ≠ p := by
  have hlt : i < set.length := (List.getElem?_eq_some.mp hi).1
  constructor
  · intro ha
    obtain ⟨k, hk⟩ := List.mem_iff_getElem?.mp ha
    rw [getElem?_swapRemove set i k hlt] at hk
    by_cases hk1 : k < set.length - 1
    · simp only [hk1, if_true] at hk
      by_cases hki : k = i
      · simp only [hki, if_true] at hk
        refine ⟨List.mem_iff_getElem?.mpr ⟨_, hk⟩, ?_⟩
        intro hap
        subst hap
        have := h.index_eq hk hi
        omega
      · simp only [hki, if_false] at hk
        refine ⟨List.mem_iff_getElem?.mpr ⟨_, hk⟩, ?_⟩
        intro hap
        subst hap
        exact hki (h.index_eq hk hi)
    · simp [hk1] at hk
  · rintro ⟨ha, hap⟩
    obtain ⟨k, hk⟩ := List.mem_iff_getElem?.mp ha
    have hklt : k < set.length := (List.getElem?_eq_some.mp hk).1
    have hki : k ≠ i := by
      intro hki
      subst hki
      rw [hk] at hi
      exact hap (Option.some.inj hi)
    apply List.mem_iff_getElem?.mpr
    by_cases hk1 : k < set.length - 1
    · refine ⟨k, ?_⟩
      rw [getElem?_swapRemove set i k hlt]
      simp only [hk1, hki, if_true, if_false]
      exact hk
    · refine ⟨i, ?_⟩
      have h1 : i < set.length - 1 := by omega
      have h2 : set.length - 1 = k := by omega
      rw [getElem?_swapRemove set i i hlt, if_pos h1, if_pos rfl, h2]
      exact hk

theorem removeLoop_cons_present (p : Ptr) (rest : List Ptr) (hash : IndexMap) (set : List Ptr)
    (i : Nat) (hp : hash p = some i) (hi : i < set.length) :
    removeLoop (p :: rest) hash set
      = removeLoop rest (hashAfter hash set i) (swapRemove set i) := by
  unfold hashAfter
  by_cases h : i + 1 = set.length
  · rw [if_pos h]
    exact removeLoop_cons_last p rest hash set i hp h
  · rw [if_neg h]
    exact removeLoop_cons_swap p rest hash set i hp (by omega)

theorem hashAfter_of_not_mem (hash : IndexMap) (set : List Ptr) (i : Nat) (q : Ptr)
    (hq : q ∉ set) (hi : i < set.length) : hashAfter hash set i q = hash q := by
  unfold hashAfter
  split
  · rfl
  · have hx : set.getD (set.length - 1) 0 ∈ set := by
      apply List.mem_iff_getElem?.mpr
      exact ⟨set.length - 1, (getD_last set (by omega)).symm⟩
    have : q ≠ set.getD (set.length - 1) 0 := fun h => hq (h ▸ hx)
    simp only [IndexMap.put, if_neg this]

theorem Indexed.after_swapRemove {hash : IndexMap} {set : List Ptr} (h : Indexed hash set)
    {i : Nat} (hi : i < set.length) :
    Indexed (hashAfter hash set i) (swapRemove set i) := by
  intro k a hk
  rw [getElem?_swapRemove set i k hi] at hk
  by_cases hk1 : k < set.length - 1
  · simp only [hk1, if_true] at hk
    unfold hashAfter
    by_cases hlast : i + 1 = set.length
    · rw [if_pos hlast]
      have hki : k ≠ i := by omega
      simp only [hki, if_false] at hk
      exact h k a hk
    · rw [if_neg hlast]
      have hx := getD_last set (by omega)
      by_cases hki : k = i
      · simp only [hki, if_true] at hk
        rw [← hx] at hk
        have : a = set.getD (set.length - 1) 0 := (Option.some.inj hk).symm
        simp [IndexMap.put, this, hki]
      · simp only [hki, if_false] at hk
        have hne : a ≠ set.getD (set.length - 1) 0 := by
          intro hax
          have h2 : set[set.length - 1]? = some a := by rw [hax]; exact hx.symm
          have := h.index_eq hk h2
          omega
        simp only [IndexMap.put, hne, if_false]
        exact h k a hk
  · simp [hk1] at hk

/-- The second loop of `remove`, when `hash` holds the index of every entry,
no handle is passed twice and `hash` has no entry for a passed handle that is
not registered: no panic; the result has the entries whose handle was not
passed, each once; and a front part of the list that holds no passed handle
stays as it is. -/
theorem removeLoop_spec (pSet : List Ptr) (hash : IndexMap) (set : List Ptr)
    (hidx : Indexed hash set) (hnd : pSet.Nodup)
    (habs : ∀ p ∈ pSet, p ∉ set → hash p = none) :
    ∃ set1, removeLoop pSet hash set = some set1 ∧ set1.Nodup
      ∧ (∀ a, a ∈ set1 ↔ a ∈ set ∧ a ∉ pSet)
      ∧ (∀ m, (∀ p ∈ pSet, p ∉ set.take m) → set1.take m = set.take m) := by
  induction pSet generalizing hash set with
  | nil =>
    exact ⟨set, by simp [removeLoop], hidx.nodup, by simp, fun _ _ => rfl⟩
  | cons p rest ih =>
    have hnd1 : rest.Nodup := (List.nodup_cons.mp hnd).2
    have hp_rest : p ∉ rest := (List.nodup_cons.mp hnd).1
    cases hp : hash p with
    | none =>
      have hpset : p ∉ set := by
        intro hmem
        obtain ⟨i, _, hi⟩ := hidx.of_mem hmem
        rw [hp] at hi
        exact Option.noConfusion hi
      obtain ⟨set1, h1, h2, h3, h4⟩ := ih hash set hidx hnd1
        (fun q hq hqs => habs q (List.mem_cons_of_mem _ hq) hqs)
      refine ⟨set1, ?_, h2, ?_, ?_⟩
      · rw [removeLoop_cons_none p rest hash set hp]; exact h1
      · intro a
        rw [h3 a, List.mem_cons, not_or]
        constructor
        · rintro ⟨ha, har⟩
          exact ⟨ha, fun hap => hpset (hap ▸ ha), har⟩
        · rintro ⟨ha, _, har⟩
          exact ⟨ha, har⟩
      · intro m hm
        exact h4 m (fun q hq => hm q (List.mem_cons_of_mem _ hq))
    | some i =>
      have hpset : p ∈ set := by
        by_contra hmem
        have := habs p (List.mem_cons_self _ _) hmem
        rw [hp] at this
        exact Option.noConfusion this
      obtain ⟨j, hj, hhj⟩ := hidx.of_mem hpset
      have hij : i = j := by rw [hp] at hhj; exact Option.some.inj hhj
      subst hij
      have hlt : i < set.length := (List.getElem?_eq_some.mp hj).1
      have hmem1 := mem_swapRemove hidx hj
      obtain ⟨set1, h1, h2, h3, h4⟩ := ih (hashAfter hash set i) (swapRemove set i)
        (hidx.after_swapRemove hlt) hnd1
        (by
          intro q hq hqs
          by_cases hqset : q ∈ set
          · exfalso
            have hqp : q = p := by
              by_contra hne
              exact hqs ((hmem1 q).mpr ⟨hqset, hne⟩)
            exact hp_rest (hqp ▸ hq)
          · rw [hashAfter_of_not_mem hash set i q hqset hlt]
            exact habs q (List.mem_cons_of_mem _ hq) hqset)
      refine ⟨set1, ?_, h2, ?_, ?_⟩
      · rw [removeLoop_cons_present p rest hash set i hp hlt]; exact h1
      · intro a
        rw [h3 a, hmem1 a, List.mem_cons, not_or, and_assoc]
      · intro m hm
        have hmi : m ≤ i := by
          by_contra hlt2
          have hlt3 : i < m := by omega
          apply hm p (List.mem_cons_self _ _)
          apply List.mem_iff_getElem?.mpr
          exact ⟨i, by rw [List.getElem?_take, if_pos hlt3]; exact hj⟩
        have htake : (swapRemove set i).take m = set.take m := by
          unfold swapRemove
          rw [List.take_take, Nat.min_eq_left (by omega), take_set_of_le _ _ _ _ hmi]
        rw [← htake]
        apply h4 m
        intro q hq
        rw [htake]
        exact hm q (List.mem_cons_of_mem _ hq)

theorem buildHash_of_not_mem (set : List Ptr) (i : Nat) (hash : IndexMap) (p : Ptr)
    (hp : p ∉ set) : buildHash set i hash p = hash p := by
  induction set generalizing i hash with
  | nil => rfl
  | cons q rest ih =>
    simp only [List.mem_cons, not_or] at hp
    rw [buildHash, ih _ _ hp.2]
    simp only [IndexMap.put, if_neg hp.1]

theorem buildHash_getElem? (set : List Ptr) (hnd : set.Nodup) (i : Nat) (hash : IndexMap)
    (k : Nat) (p : Ptr) (hk : set[k]? = some p) : buildHash set i hash p = some (i + k) := by
  induction set generalizing i hash k with
  | nil => simp at hk
  | cons q rest ih =>
    have hq : q ∉ rest := (List.nodup_cons.mp hnd).1
    cases k with
    | zero =>
      simp only [List.getElem?_cons_zero, Option.some.injEq] at hk
      subst hk
      rw [buildHash, buildHash_of_not_mem rest _ _ q hq]
      simp [IndexMap.put]
    | succ k =>
      simp only [List.getElem?_cons_succ] at hk
      rw [buildHash, ih (List.nodup_cons.mp hnd).2 _ _ k hk]
      congr 1
      omega

theorem buildHash_indexed (set : List Ptr) (hnd : set.Nodup) :
    Indexed (buildHash set 0 (fun _ => none)) set := by
  intro k p hk
  rw [buildHash_getElem? set hnd 0 _ k p hk, Nat.zero_add]

/-- `remove` on a registry of pairwise distinct handles, with pairwise distinct
handles passed (registered or not, in any order): no panic; the handles left
are pairwise distinct and are those not passed; a front part of the list that
holds no passed handle stays as it is. -/
theorem remove_spec (ps : processors) (pSet : List Ptr) (hset : ps.set.Nodup)
    (hargs : pSet.Nodup) :
    ∃ ps1, ps.remove pSet = some ps1 ∧ ps1.set.Nodup
      ∧ (∀ a, a ∈ ps1.set ↔ a ∈ ps.set ∧ a ∉ pSet)
      ∧ (∀ m, (∀ p ∈ pSet, p ∉ ps.set.take m) → ps1.set.take m = ps.set.take m) := by
  obtain ⟨set1, h1, h2, h3, h4⟩ := removeLoop_spec pSet (buildHash ps.set 0 (fun _ => none))
    ps.set (buildHash_indexed ps.set hset) hargs
    (fun p _ hp => buildHash_absent ps.set 0 _ p hp rfl)
  exact ⟨{ set := set1 }, by simp [processors.remove, h1], h2, h3, h4⟩

/-- As `remove_spec`: the result is a permutation of the list with the passed
handles filtered out, and its length is the old length minus the number of
passed handles that were registered. -/
theorem remove_perm_filter (ps : processors) (pSet : List Ptr) (hset : ps.set.Nodup)
    (hargs : pSet.Nodup) :
    ∃ ps1, ps.remove pSet = some ps1
      ∧ ps1.set.Perm (ps.set.filter (fun a => decide (a ∉ pSet)))
      ∧ ps1.set.length + (pSet.filter (fun p => decide (p ∈ ps.set))).length = ps.set.length := by
  obtain ⟨ps1, h1, h2, h3, _⟩ := remove_spec ps pSet hset hargs
  have hperm : ps1.set.Perm (ps.set.filter (fun a => decide (a ∉ pSet))) := by
    rw [List.perm_ext_iff_of_nodup h2 (hset.filter _)]
    intro a
    rw [h3 a]
    simp
  refine ⟨ps1, h1, hperm, ?_⟩
  rw [hperm.length_eq]
  have hp2 : (pSet.filter (fun p => decide (p ∈ ps.set))).Perm
      (ps.set.filter (fun a => decide (a ∈ pSet))) := by
    rw [List.perm_ext_iff_of_nodup (hargs.filter _) (hset.filter _)]
    intro a
    simp [and_comm]
  rw [hp2.length_eq]
  have := List.length_eq_length_filter_add (l := ps.set) (fun a => decide (a ∈ pSet))
  simp only [decide_not] at *
  omega

theorem add_eq (ps : processors) (pSet : List Ptr) :
    ps.add pSet = { set := ps.set ++ pSet } := by
  rw [← add_set]

theorem Use_perIteration_eq (w : World) (ps : List Processor) :
    Errors.Use .perIteration w ps
      = ({ w with heap := w.heap ++ ps,
                  e := { processors := { set := w.e.processors.set
                    ++ (List.range ps.length).map (fun i => w.heap.length + i) } } },
         (List.range ps.length).map (fun i => w.heap.length + i)) := by
  simp only [Errors.Use, usePtrs_perIteration, add_eq]

theorem fresh_nodup (base n : Nat) : ((List.range n).map (fun i => base + i)).Nodup := by
  apply List.Nodup.map _ (List.nodup_range n)
  intro a b h
  simp only at h
  omega

/-- With one variable per iteration, `Use(ps...)` followed by a call of the
closure it returned, from a state whose handles are pairwise distinct: no
panic, and the registry and the snapshot are those before the `Use` call. -/
theorem Use_revoke_perIteration (w : World) (hw : w.WF) (hnd : w.e.processors.set.Nodup)
    (ps : List Processor) :
    ∃ w1, Errors.revoke (Errors.Use .perIteration w ps).1 (Errors.Use .perIteration w ps).2
        = some w1
      ∧ w1.e = w.e ∧ w1.get = w.get := by
  rw [Use_perIteration_eq]
  have hfresh : ∀ p ∈ (List.range ps.length).map (fun i => w.heap.length + i),
      p ∉ w.e.processors.set := by
    intro p hp hmem
    have h1 : p < w.heap.length := hw p hmem
    simp only [List.mem_map, List.mem_range] at hp
    obtain ⟨i, _, hi⟩ := hp
    have h2 : w.heap.length ≤ p := by rw [← hi]; exact Nat.le_add_right _ _
    exact absurd h1 (Nat.not_lt.mpr h2)
  have hall : (w.e.processors.set
      ++ (List.range ps.length).map (fun i => w.heap.length + i)).Nodup := by
    rw [List.nodup_append]
    refine ⟨hnd, fresh_nodup _ _, ?_⟩
    intro a ha hb
    exact hfresh a hb ha
  obtain ⟨ps1, h1, h2, h3, h4⟩ := remove_spec
    { set := w.e.processors.set ++ (List.range ps.length).map (fun i => w.heap.length + i) }
    ((List.range ps.length).map (fun i => w.heap.length + i)) hall (fresh_nodup _ _)
  have htake := h4 w.e.processors.set.length (by
    intro p hp
    simp only [List.take_left]
    exact hfresh p hp)
  simp only [List.take_left] at htake
  have hperm : ps1.set.Perm w.e.processors.set := by
    rw [List.perm_ext_iff_of_nodup h2 hnd]
    intro a
    rw [h3 a]
    simp only [List.mem_append]
    constructor
    · rintro ⟨h | h, hn⟩
      · exact h
      · exact absurd h hn
    · intro h
      exact ⟨Or.inl h, fun hn => hfresh a hn h⟩
  have hset : ps1.set = w.e.processors.set := by
    rw [← htake, List.take_of_length_le (Nat.le_of_eq hperm.length_eq)]
  have hps1 : ps1 = w.e.processors := by
    cases ps1; simp only at hset; subst hset; rfl
  refine ⟨{ w with heap := w.heap ++ ps }, ?_, rfl, get_append_heap w hw ps⟩
  simp only [Errors.revoke, h1, hps1, Option.map_some']

/-! ## Stale closures, repeated registration -/

theorem usePtrs_lt (sem : LoopVar) (heap : Heap) (ps : List Processor) :
    ∀ a ∈ (usePtrs sem heap ps).2, a < (usePtrs sem heap ps).1.length := by
  cases sem with
  | perIteration =>
    rw [usePtrs_perIteration]
    intro a ha
    simp only [List.mem_map, List.mem_range] at ha
    obtain ⟨i, hi, rfl⟩ := ha
    simp only [List.length_append]
    exact Nat.add_lt_add_left hi _
  | perLoop =>
    cases ps with
    | nil => simp [usePtrs]
    | cons v0 rest =>
      rw [usePtrs_perLoop]
      intro a ha
      have := List.eq_of_mem_replicate ha
      simp only [List.length_append, List.length_singleton]
      rw [this]
      exact Nat.lt_succ_self _

theorem get_With (w : World) (ps : List Processor) : (Errors.With w ps).get = ps := by
  simp only [Errors.With, allocSlice, World.get, processors.get, processors.with_]
  exact load_slice w.heap ps

theorem remove_of_absent (ps : processors) (pSet : List Ptr)
    (h : ∀ p ∈ pSet, p ∉ ps.set) : ps.remove pSet = some ps := by
  have hl := removeLoop_absent pSet (buildHash ps.set 0 (fun _ => none)) ps.set
    (fun p hp => buildHash_absent ps.set 0 _ p (h p hp) rfl)
  simp [processors.remove, hl]

/-- C11: `remove := Use(ps...)` followed by `With(qs...)`: the call
`remove()` does not panic and changes nothing, and `get()` is `qs`; this holds
from every state, for all lists `ps` and `qs` (equal processor values
included) and under either loop-variable rule. -/
theorem With_makes_revoke_noop (sem : LoopVar) (w : World) (ps qs : List Processor) :
    Errors.revoke (Errors.With (Errors.Use sem w ps).1 qs) (Errors.Use sem w ps).2
        = some (Errors.With (Errors.Use sem w ps).1 qs)
      ∧ (Errors.With (Errors.Use sem w ps).1 qs).get = qs := by
  refine ⟨?_, get_With _ qs⟩
  have hlt := usePtrs_lt sem w.heap ps
  have habs : ∀ p ∈ (Errors.Use sem w ps).2,
      p ∉ (Errors.With (Errors.Use sem w ps).1 qs).e.processors.set := by
    intro p hp hmem
    have h1 : p < (usePtrs sem w.heap ps).1.length := hlt p hp
    simp only [Errors.With, allocSlice, processors.with_, Errors.Use, List.mem_map,
      List.mem_range] at hmem
    obtain ⟨i, _, hi⟩ := hmem
    have h2 : (usePtrs sem w.heap ps).1.length ≤ p := by
      rw [← hi]; exact Nat.le_add_right _ _
    exact absurd h1 (Nat.not_lt.mpr h2)
  simp only [Errors.revoke, remove_of_absent _ _ habs, Option.map_some']


theorem buildHash_append (l1 l2 : List Ptr) (i : Nat) (hash : IndexMap) :
    buildHash (l1 ++ l2) i hash = buildHash l2 (i + l1.length) (buildHash l1 i hash) := by
  induction l1 generalizing i hash with
  | nil => simp [buildHash]
  | cons q rest ih =>
    rw [List.cons_append, buildHash, ih, buildHash, List.length_cons, Nat.add_assoc,
      Nat.add_comm 1]

theorem getElem?_append_add (l more : List Ptr) (j : Nat) :
    (l ++ more)[l.length + j]? = more[j]? := by
  rw [List.getElem?_append_right (Nat.le_add_right _ _), Nat.add_sub_cancel_left]

theorem load_append_add (heap more : Heap) (j : Nat) :
    load (heap ++ more) (heap.length + j) = more.getD j 0 := by
  simp only [load, List.getD_eq_getElem?_getD]
  rw [getElem?_append_add]

theorem swapRemove_two_last (set : List Ptr) (a b : Ptr) :
    swapRemove (set ++ [a, b]) set.length = set ++ [b] := by
  apply List.ext_getElem?
  intro k
  rw [getElem?_swapRemove _ _ _ (by simp)]
  simp only [List.length_append, List.length_cons, List.length_nil, Nat.add_succ_sub_one,
    Nat.add_zero]
  by_cases hk : k < set.length
  · have h1 : k < set.length + 1 := by omega
    have h2 : k ≠ set.length := by omega
    simp only [h1, h2, if_true, if_false]
    rw [List.getElem?_append_left hk, List.getElem?_append_left hk]
  · by_cases hk2 : k = set.length
    · subst hk2
      rw [if_pos (Nat.lt_succ_self _), if_pos rfl, getElem?_append_add set [a, b] 1]
      have := getElem?_append_add set [b] 0
      rw [Nat.add_zero] at this
      rw [this]
      rfl
    · have h1 : ¬ k < set.length + 1 := by omega
      simp only [h1, if_false]
      symm
      apply List.getElem?_eq_none
      simp only [List.length_append, List.length_singleton]
      omega

theorem remove_first_of_two (set : List Ptr) (a b : Ptr) (hab : a ≠ b) :
    processors.remove { set := set ++ [a, b] } [a] = some { set := set ++ [b] } := by
  have hh : buildHash (set ++ [a, b]) 0 (fun _ => none) a = some set.length := by
    have : set ++ [a, b] = (set ++ [a]) ++ [b] := by simp
    rw [this, buildHash_append, buildHash_of_not_mem [b] _ _ a (by simpa using hab),
      buildHash_append_last, Nat.zero_add]
  have h := removeLoop_cons_swap a [] (buildHash (set ++ [a, b]) 0 (fun _ => none))
    (set ++ [a, b]) set.length hh (by simp)
  unfold processors.remove
  rw [h, swapRemove_two_last]
  rfl

/-- C12: from a state whose handles point to allocated cells, two calls
`r1 := Use(P)` and `r2 := Use(P)` add two entries: `get()` is the snapshot
before followed by `P, P` (so `P` occurs two more times) and `Process` with a
non-nil error makes the calls it made before followed by two calls of `P`;
`r1()` then leaves the snapshot before followed by one `P`, and `r2()` after
that leaves the snapshot before.  Either loop-variable rule. -/
theorem Use_twice_independent (sem : LoopVar) (w : World) (hw : w.WF) (P : Processor)
    (x : Err) :
    (Errors.Use sem (Errors.Use sem w [P]).1 [P]).1.get = w.get ++ [P, P]
      ∧ (Errors.Use sem (Errors.Use sem w [P]).1 [P]).1.get.count P = w.get.count P + 2
      ∧ (Errors.Process (Errors.Use sem (Errors.Use sem w [P]).1 [P]).1 (some x)).1.calls
          = (Errors.Process w (some x)).1.calls ++ [(P, x), (P, x)]
      ∧ ∃ w3, Errors.revoke (Errors.Use sem (Errors.Use sem w [P]).1 [P]).1
            (Errors.Use sem w [P]).2 = some w3
          ∧ w3.get = w.get ++ [P]
          ∧ ∃ w4, Errors.revoke w3 (Errors.Use sem (Errors.Use sem w [P]).1 [P]).2 = some w4
              ∧ w4.get = w.get := by
  have hget : w.e.processors.set.map (load (w.heap ++ [P, P])) = w.get :=
    get_append_heap w hw _
  have hl0 : load (w.heap ++ [P, P]) w.heap.length = P := by
    have := load_append_add w.heap [P, P] 0
    rw [Nat.add_zero] at this
    rw [this]; rfl
  have hl1 : load (w.heap ++ [P, P]) (w.heap.length + 1) = P := by
    rw [load_append_add]; rfl
  have hU : Errors.Use sem (Errors.Use sem w [P]).1 [P]
      = ({ w with heap := w.heap ++ [P, P],
                  e := { processors := { set := w.e.processors.set
                    ++ [w.heap.length, w.heap.length + 1] } } },
         [w.heap.length + 1]) := by
    simp only [Use_single, List.append_assoc, List.singleton_append, List.length_append,
      List.length_singleton]
  have hU1 : (Errors.Use sem w [P]).2 = [w.heap.length] := by rw [Use_single]
  have hgetPP : (Errors.Use sem (Errors.Use sem w [P]).1 [P]).1.get = w.get ++ [P, P] := by
    rw [hU]
    simp only [World.get, processors.get, List.map_append, List.map_cons, List.map_nil, hl0,
      hl1]
    rw [hget]
    rfl
  refine ⟨hgetPP, ?_, ?_, ?_⟩
  · rw [hgetPP]; simp
  · simp only [Errors.Process, dispatch_eq, hgetPP, List.map_append, List.map_cons,
      List.map_nil, List.append_assoc]
    rw [hU]
  · rw [hU, hU1]
    simp only [Errors.revoke]
    rw [remove_first_of_two _ _ _ (Nat.ne_of_lt (Nat.lt_succ_self _))]
    refine ⟨_, rfl, ?_, ?_⟩
    · simp only [World.get, processors.get, List.map_append, List.map_cons, List.map_nil, hl1]
      rw [hget]
      rfl
    · simp only [remove_last_added, Option.map_some']
      refine ⟨_, rfl, ?_⟩
      simp only [World.get, processors.get]
      exact hget

theorem Use_twice_independent_witness :
    (NewErrors [5, 7]).WF
      ∧ (Errors.Use .perLoop (Errors.Use .perLoop (NewErrors [5, 7]) [5]).1 [5]).1.get
          = (NewErrors [5, 7]).get ++ [5, 5] :=
  ⟨by decide, (Use_twice_independent .perLoop (NewErrors [5, 7]) (by decide) 5 1).1⟩

/-! ## Removal of one handle, and of several -/

theorem length_swapRemove (set : List Ptr) (i : Nat) :
    (swapRemove set i).length = set.length - 1 := by
  simp [swapRemove, List.length_take, List.length_set]

theorem swapRemove_last (set : List Ptr) (i : Nat) (hi : i + 1 = set.length) :
    swapRemove set i = set.take i := by
  unfold swapRemove
  have h : set.length - 1 = i := by omega
  rw [h, take_set_of_le _ _ _ _ (Nat.le_refl i)]

theorem remove_one (ps : processors) (hnd : ps.set.Nodup) (i : Nat) (h : Ptr)
    (hi : ps.set[i]? = some h) :
    ps.remove [h] = some { set := swapRemove ps.set i } := by
  have hlt : i < ps.set.length := (List.getElem?_eq_some.mp hi).1
  have hh : buildHash ps.set 0 (fun _ => none) h = some i := by
    rw [buildHash_getElem? ps.set hnd 0 _ i h hi, Nat.zero_add]
  unfold processors.remove
  rw [removeLoop_cons_present h [] _ ps.set i hh hlt]
  rfl

/-- C15: in a registry of pairwise distinct handles, `remove(h)` for the handle
`h` at index `i` does not panic and yields a list one shorter; position `i` of
it, when `i` is not the last index of the old list, holds the entry that was
last, and every other position holds the entry it held before; when `i` is the
last index the result is the old list cut by one. -/
theorem remove_one_swaps_with_last (ps : processors) (hnd : ps.set.Nodup) (i : Nat) (h : Ptr)
    (hi : ps.set[i]? = some h) :
    ∃ ps1, ps.remove [h] = some ps1
      ∧ ps1.set.length + 1 = ps.set.length
      ∧ (∀ k, k < ps1.set.length →
          ps1.set[k]? = if k = i then ps.set[ps.set.length - 1]? else ps.set[k]?)
      ∧ (i + 1 = ps.set.length → ps1.set = ps.set.take i) := by
  have hlt : i < ps.set.length := (List.getElem?_eq_some.mp hi).1
  refine ⟨{ set := swapRemove ps.set i }, remove_one ps hnd i h hi, ?_, ?_, ?_⟩
  · simp only [length_swapRemove]
    omega
  · intro k hk
    simp only [length_swapRemove] at hk
    show (swapRemove ps.set i)[k]? = _
    rw [getElem?_swapRemove ps.set i k hlt, if_pos hk]
  · intro hlast
    exact swapRemove_last ps.set i hlast

theorem remove_one_swaps_with_last_witness :
    (processors.mk [10, 11, 12, 13]).set.Nodup
      ∧ (processors.mk [10, 11, 12, 13]).set[1]? = some 11
      ∧ ∃ ps1, (processors.mk [10, 11, 12, 13]).remove [11] = some ps1
          ∧ ps1.set.length + 1 = (processors.mk [10, 11, 12, 13]).set.length
          ∧ (∀ k, k < ps1.set.length →
              ps1.set[k]? = if k = 1
                then (processors.mk [10, 11, 12, 13]).set[
                  (processors.mk [10, 11, 12, 13]).set.length - 1]?
                else (processors.mk [10, 11, 12, 13]).set[k]?)
          ∧ (1 + 1 = (processors.mk [10, 11, 12, 13]).set.length →
              ps1.set = (processors.mk [10, 11, 12, 13]).set.take 1) :=
  ⟨by decide, by decide,
    remove_one_swaps_with_last (processors.mk [10, 11, 12, 13]) (by decide) 1 11 (by decide)⟩

/-- C18: on a registry of pairwise distinct handles, with pairwise distinct
handles passed (registered or not, in any order), `remove` does not panic; the
result is a permutation of the old list with the entries whose handle was
passed filtered out; its length is the old length minus the number of passed
handles that were registered; and its handles are pairwise distinct. -/
theorem remove_distinct_exact (ps : processors) (pSet : List Ptr) (hset : ps.set.Nodup)
    (hargs : pSet.Nodup) :
    ∃ ps1, ps.remove pSet = some ps1
      ∧ ps1.set.Perm (ps.set.filter (fun a => decide (a ∉ pSet)))
      ∧ ps1.set.length = ps.set.length - (pSet.filter (fun p => decide (p ∈ ps.set))).length
      ∧ ps1.set.Nodup := by
  obtain ⟨ps1, h1, h2, h3⟩ := remove_perm_filter ps pSet hset hargs
  obtain ⟨ps2, g1, g2, _⟩ := remove_spec ps pSet hset hargs
  have heq : ps2 = ps1 := by
    rw [h1] at g1
    exact (Option.some.inj g1).symm
  refine ⟨ps1, h1, h2, ?_, heq ▸ g2⟩
  omega

theorem remove_distinct_exact_witness :
    (processors.mk [0, 1, 2, 3]).set.Nodup ∧ ([2, 7, 0] : List Ptr).Nodup
      ∧ ∃ ps1, (processors.mk [0, 1, 2, 3]).remove [2, 7, 0] = some ps1
          ∧ ps1.set.Perm
              ((processors.mk [0, 1, 2, 3]).set.filter (fun a => decide (a ∉ [2, 7, 0])))
          ∧ ps1.set.length = (processors.mk [0, 1, 2, 3]).set.length
              - (([2, 7, 0] : List Ptr).filter
                  (fun p => decide (p ∈ (processors.mk [0, 1, 2, 3]).set))).length
          ∧ ps1.set.Nodup :=
  ⟨by decide, by decide,
    remove_distinct_exact (processors.mk [0, 1, 2, 3]) [2, 7, 0] (by decide) (by decide)⟩

/-! ## Distinctness of handles -/

/-- C17: the code at `e := NewErrors(); e.Use(1, 2)` with one loop variable per
loop: the registry holds the handle 0 twice and the closure returned captures
the handle 0 twice, so neither list is pairwise distinct. -/
theorem Use_breaks_handle_distinctness :
    (runFrom .perLoop [] [.Use [1, 2]]).map (fun s => (s.w.e.processors.set, s.removers))
        = some ([0, 0], [[0, 0]])
      ∧ ¬ ([0, 0] : List Ptr).Nodup := by
  decide

theorem fresh_ge (base n : Nat) : ∀ a ∈ (List.range n).map (fun i => base + i), base ≤ a := by
  intro a ha
  simp only [List.mem_map, List.mem_range] at ha
  obtain ⟨i, _, hi⟩ := ha
  rw [← hi]
  exact Nat.le_add_right _ _

theorem fresh_lt (base n : Nat) :
    ∀ a ∈ (List.range n).map (fun i => base + i), a < base + n := by
  intro a ha
  simp only [List.mem_map, List.mem_range] at ha
  obtain ⟨i, hi, hia⟩ := ha
  rw [← hia]
  exact Nat.add_lt_add_left hi _

theorem Distinct_init (init : List Processor) :
    Session.Distinct { w := NewErrors init, removers := [] } := by
  refine ⟨?_, ?_, ?_, List.Pairwise.nil⟩
  · intro a ha
    simp only [NewErrors, Errors.With, allocSlice, processors.with_, World.new] at ha ⊢
    have := fresh_lt _ _ a ha
    simpa using this
  · simp only [NewErrors, Errors.With, allocSlice, processors.with_]
    exact fresh_nodup _ _
  · intro r hr
    simp at hr

theorem Distinct_With (s : Session) (hs : s.Distinct) (pSet : List Processor) :
    Session.Distinct { s with w := Errors.With s.w pSet } := by
  obtain ⟨_, _, h3, h4⟩ := hs
  refine ⟨?_, ?_, ?_, h4⟩
  · intro a ha
    simp only [Errors.With, allocSlice, processors.with_] at ha ⊢
    have := fresh_lt _ _ a ha
    simpa using this
  · simp only [Errors.With, allocSlice, processors.with_]
    exact fresh_nodup _ _
  · intro r hr
    refine ⟨(h3 r hr).1, ?_⟩
    intro a ha
    have g : (a : Nat) < s.w.heap.length := (h3 r hr).2 a ha
    simp only [Errors.With, allocSlice, List.length_append]
    exact Nat.lt_of_lt_of_le g (Nat.le_add_right _ _)

theorem Distinct_Use (s : Session) (hs : s.Distinct) (ps : List Processor) :
    Session.Distinct { w := (Errors.Use .perIteration s.w ps).1,
                       removers := s.removers ++ [(Errors.Use .perIteration s.w ps).2] } := by
  obtain ⟨h1, h2, h3, h4⟩ := hs
  rw [Use_perIteration_eq]
  refine ⟨?_, ?_, ?_, ?_⟩
  · intro a ha
    simp only [List.mem_append] at ha
    simp only [List.length_append]
    rcases ha with ha | ha
    · have g : (a : Nat) < s.w.heap.length := h1 a ha
      exact Nat.lt_of_lt_of_le g (Nat.le_add_right _ _)
    · exact fresh_lt _ _ a ha
  · simp only
    rw [List.nodup_append]
    refine ⟨h2, fresh_nodup _ _, ?_⟩
    intro a ha hb
    have g1 : (a : Nat) < s.w.heap.length := h1 a ha
    have g2 := fresh_ge _ _ a hb
    exact absurd g1 (Nat.not_lt.mpr g2)
  · intro r hr
    simp only [List.mem_append, List.mem_singleton] at hr
    simp only [List.length_append]
    rcases hr with hr | hr
    · refine ⟨(h3 r hr).1, ?_⟩
      intro a ha
      have g : (a : Nat) < s.w.heap.length := (h3 r hr).2 a ha
      exact Nat.lt_of_lt_of_le g (Nat.le_add_right _ _)
    · subst hr
      exact ⟨fresh_nodup _ _, fresh_lt _ _⟩
  · simp only
    rw [List.pairwise_append]
    refine ⟨h4, List.pairwise_singleton _ _, ?_⟩
    intro r hr r2 hr2 a ha hb
    simp only [List.mem_singleton] at hr2
    subst hr2
    have g1 : (a : Nat) < s.w.heap.length := (h3 r hr).2 a ha
    have g2 := fresh_ge _ _ a hb
    exact absurd g1 (Nat.not_lt.mpr g2)

theorem Distinct_Revoke (s : Session) (hs : s.Distinct) (pPtrs : List Ptr)
    (hp : pPtrs ∈ s.removers) :
    ∃ w1, Errors.revoke s.w pPtrs = some w1 ∧ Session.Distinct { s with w := w1 } := by
  obtain ⟨h1, h2, h3, h4⟩ := hs
  obtain ⟨ps1, g1, g2, g3, _⟩ := remove_spec s.w.e.processors pPtrs h2 (h3 pPtrs hp).1
  refine ⟨{ s.w with e := { processors := ps1 } }, by simp [Errors.revoke, g1], ?_, g2, h3, h4⟩
  intro a ha
  exact h1 a ((g3 a).mp ha).1

/-- With one variable per iteration, no sequence of `With`, `Use` and closure
calls panics, and in the state it ends in the handles are in order. -/
theorem run_perIteration_distinct (ops : List Op) (s : Session) (hs : s.Distinct) :
    ∃ s1, Session.run .perIteration s ops = some s1 ∧ s1.Distinct := by
  induction ops generalizing s with
  | nil => exact ⟨s, rfl, hs⟩
  | cons op rest ih =>
    cases op with
    | With pSet =>
      obtain ⟨s1, h1, h2⟩ := ih _ (Distinct_With s hs pSet)
      exact ⟨s1, by simpa [Session.run, Session.step] using h1, h2⟩
    | Use ps =>
      obtain ⟨s1, h1, h2⟩ := ih _ (Distinct_Use s hs ps)
      exact ⟨s1, by simpa [Session.run, Session.step] using h1, h2⟩
    | Revoke k =>
      cases hk : s.removers[k]? with
      | none =>
        obtain ⟨s1, h1, h2⟩ := ih s hs
        exact ⟨s1, by simpa [Session.run, Session.step, hk] using h1, h2⟩
      | some pPtrs =>
        have hmem : pPtrs ∈ s.removers := List.getElem?_mem hk
        obtain ⟨w1, g1, g2⟩ := Distinct_Revoke s hs pPtrs hmem
        obtain ⟨s1, h1, h2⟩ := ih _ g2
        exact ⟨s1, by simpa [Session.run, Session.step, hk, g1] using h1, h2⟩

/-- With one variable per iteration, every program `NewErrors(init...)`
followed by `With`, `Use` and closure calls runs without a panic and keeps the
handles of the registry and of every closure pairwise distinct. -/
theorem runFrom_perIteration_distinct (init : List Processor) (ops : List Op) :
    ∃ s1, runFrom .perIteration init ops = some s1 ∧ s1.Distinct :=
  run_perIteration_distinct ops _ (Distinct_init init)

/-! ## Processors that change the registry while `Process` runs -/

theorem step_withCalls (sem : LoopVar) (s : Session) (c : List Call) (op : Op) :
    (s.withCalls c).step sem op = (s.step sem op).map (fun s1 => s1.withCalls c) := by
  cases op with
  | With pSet => rfl
  | Use ps => rfl
  | Revoke k =>
    simp only [Session.step, Session.withCalls]
    cases hk : s.removers[k]? with
    | none => rfl
    | some pPtrs =>
      simp only [Errors.revoke]
      cases hr : s.w.e.processors.remove pPtrs with
      | none => rfl
      | some ps1 => rfl

theorem run_withCalls (sem : LoopVar) (ops : List Op) (s : Session) (c : List Call) :
    Session.run sem (s.withCalls c) ops = (Session.run sem s ops).map (fun s1 => s1.withCalls c) := by
  induction ops generalizing s with
  | nil => rfl
  | cons op rest ih =>
    simp only [Session.run, step_withCalls]
    cases h : s.step sem op with
    | none => rfl
    | some s1 => simp [ih]

theorem run_append (sem : LoopVar) (ops1 ops2 : List Op) (s : Session) :
    Session.run sem s (ops1 ++ ops2)
      = (Session.run sem s ops1).bind (fun s1 => Session.run sem s1 ops2) := by
  induction ops1 generalizing s with
  | nil => rfl
  | cons op rest ih =>
    simp only [List.cons_append, Session.run]
    cases h : s.step sem op with
    | none => rfl
    | some s1 => simp [ih]

theorem withCalls_withCalls (s : Session) (c1 c2 : List Call) :
    (s.withCalls c1).withCalls c2 = s.withCalls c2 := rfl

theorem dispatchActing_eq (sem : LoopVar) (beh : Behaviour) (snap : List Processor) (x : Err)
    (s : Session) :
    dispatchActing sem beh snap x s
      = (Session.run sem s (snap.flatMap beh)).map
          (fun s1 => s1.withCalls (s.w.calls ++ snap.map (fun p => (p, x)))) := by
  induction snap generalizing s with
  | nil =>
    simp only [dispatchActing, List.flatMap_nil, Session.run, List.map_nil, List.append_nil,
      Option.map_some']
    rfl
  | cons p rest ih =>
    have hinv : ({ s with w := invoke s.w p x } : Session)
        = s.withCalls (s.w.calls ++ [(p, x)]) := rfl
    rw [dispatchActing, hinv, run_withCalls, List.flatMap_cons, run_append]
    cases h : Session.run sem s (beh p) with
    | none => rfl
    | some s1 =>
      simp only [Option.map_some', Option.some_bind]
      rw [ih, run_withCalls]
      cases h2 : Session.run sem s1 (rest.flatMap beh) with
      | none => rfl
      | some s2 =>
        simp only [Option.map_some', withCalls_withCalls]
        have : (s1.withCalls (s.w.calls ++ [(p, x)])).w.calls = s.w.calls ++ [(p, x)] := rfl
        rw [this, List.append_assoc]
        rfl

/-- When no processor touches the registry, `ProcessActing` is `Process`. -/
theorem ProcessActing_passive (sem : LoopVar) (s : Session) (err : GoError) :
    Errors.ProcessActing sem (fun _ => []) s err
      = some ({ s with w := (Errors.Process s.w err).1 }, (Errors.Process s.w err).2) := by
  cases err with
  | none => rfl
  | some x =>
    have hnil : ∀ l : List Processor, l.flatMap (fun _ => ([] : List Op)) = [] := by
      intro l
      induction l with
      | nil => rfl
      | cons a rest ih => simp
    simp only [Errors.ProcessActing, dispatchActing_eq, hnil, Session.run, Option.map_some',
      Errors.Process, dispatch_eq]
    rfl

/-- C16: `Process` with a non-nil error `x` when the processors called change
the registry (by `With`, `Use` or closures returned by `Use`).  The calls it
makes are those of the snapshot taken before the first call, each once with
`x`, in that order, whatever the processors do to the registry; it returns `x`;
it panics only when one of the processors' own calls panics; and the state
afterwards is the one the processors' calls lead to, so they show in a later
`get()`. -/
theorem Process_uses_one_snapshot (sem : LoopVar) (beh : Behaviour) (s : Session) (x : Err) :
    Errors.ProcessActing sem beh s (some x)
      = (Session.run sem s (s.w.get.flatMap beh)).map
          (fun s1 => (s1.withCalls (s.w.calls ++ s.w.get.map (fun p => (p, x))), some x)) := by
  simp only [Errors.ProcessActing, dispatchActing_eq, Option.map_map]
  rfl

/-- An instance of C16: processors 1 and 2 are registered by two `Use` calls and
processor 1, when called, calls the closure that revokes processor 2 and
registers processor 3.  `Process` still calls 1 and then 2, and not 3; a
`get()` afterwards is `[1, 3]`. -/
theorem Process_revoking_later_processor :
    ((runFrom .perLoop [] [.Use [1], .Use [2]]).bind
        (fun s => Errors.ProcessActing .perLoop
          (fun p => if p = 1 then [.Revoke 1, .Use [3]] else []) s (some 9))).map
      (fun r => (r.1.w.calls, r.1.w.get, r.2))
      = some ([(1, 9), (2, 9)], [1, 3], some 9) := by
  decide

/-! ## Concurrent readers -/

theorem mem_versions_self (set : List Ptr) (es : List Effect) : set ∈ versions set es := by
  cases es <;> simp [versions]

theorem Sys.Shape.allowed {V : List Ptr → Prop} {s : Sys} (h : s.Shape V) : V s.set := by
  rcases h with ⟨es, _, _, h⟩ | ⟨e, es, _, _, _, h⟩ | ⟨es, _, _, _, h⟩ | ⟨_, _, _, h⟩
  · exact h _ (mem_versions_self _ _)
  · exact h _ (mem_versions_self _ _)
  · exact h _ (mem_versions_self _ _)
  · exact h

theorem critCount_set (gets : List Reader) (j : Nat) (r r1 : Reader) (h : gets[j]? = some r) :
    critCount (gets.set j r1) + (if r.critical then 1 else 0)
      = critCount gets + (if r1.critical then 1 else 0) := by
  induction gets generalizing j with
  | nil => simp at h
  | cons g rest ih =>
    cases j with
    | zero =>
      simp only [List.getElem?_cons_zero, Option.some.injEq] at h
      subst h
      simp only [List.set_cons_zero, critCount]
      omega
    | succ j =>
      simp only [List.getElem?_cons_succ] at h
      simp only [List.set_cons_succ, critCount]
      have := ih j h
      omega

theorem critCount_zero (gets : List Reader) (h : critCount gets = 0) (j : Nat) (r : Reader)
    (hj : gets[j]? = some r) : r.critical = false := by
  induction gets generalizing j with
  | nil => simp at hj
  | cons g rest ih =>
    simp only [critCount] at h
    cases j with
    | zero =>
      simp only [List.getElem?_cons_zero, Option.some.injEq] at hj
      subst hj
      by_contra hc
      simp only [Bool.not_eq_false] at hc
      simp [hc] at h
    | succ j =>
      simp only [List.getElem?_cons_succ] at hj
      exact ih (by omega) j hj

theorem Reader.Ok.of_not_critical {V : List Ptr → Prop} {heap : Heap} {set : List Ptr}
    {r : Reader} (h : r.Ok V heap set) (hc : r.critical = false) (set1 : List Ptr) :
    r.Ok V heap set1 := by
  cases r <;> simp_all [Reader.Ok, Reader.critical]

theorem ok_set {V : List Ptr → Prop} {heap : Heap} {set : List Ptr} {gets : List Reader}
    (hok : ∀ (j : Nat) (r : Reader), gets[j]? = some r → r.Ok V heap set)
    (j : Nat) (r1 : Reader) (h1 : r1.Ok V heap set) :
    ∀ (j1 : Nat) (r : Reader), (gets.set j r1)[j1]? = some r → r.Ok V heap set := by
  intro j1 r hr
  rw [List.getElem?_set] at hr
  by_cases hj : j = j1
  · rw [if_pos hj] at hr
    by_cases hlt : j < gets.length
    · rw [if_pos hlt] at hr
      rw [← Option.some.inj hr]
      exact h1
    · rw [if_neg hlt] at hr
      exact Option.noConfusion hr
  · rw [if_neg hj] at hr
    exact hok j1 r hr

theorem Inv_stepMutator {V : List Ptr → Prop} {heap : Heap} {s : Sys} (h : s.Inv V heap) :
    s.stepMutator.Inv V heap := by
  obtain ⟨hshape, hcount, hok⟩ := h
  rcases hshape with ⟨es, hp, hw, hV⟩ | ⟨e, es, hp, hw, hr, hV⟩ | ⟨es, hp, hw, hr, hV⟩
    | ⟨hp, hw, hr, hV⟩
  · cases es with
    | nil =>
      have : s.stepMutator = s := by simp [Sys.stepMutator, hp, guarded]
      rw [this]
      exact ⟨Or.inl ⟨[], hp, hw, hV⟩, hcount, hok⟩
    | cons e es1 =>
      simp only [guarded] at hp
      by_cases hr : s.readers = 0
      · have : s.stepMutator = { s with writer := true, prog := .run e :: .unlock :: guarded es1 } := by
          simp [Sys.stepMutator, hp, hw, hr]
        rw [this]
        exact ⟨Or.inr (Or.inl ⟨e, es1, rfl, rfl, hr, hV⟩), hcount, hok⟩
      · have : s.stepMutator = s := by simp [Sys.stepMutator, hp, hw, hr]
        rw [this]
        exact ⟨Or.inl ⟨e :: es1, by simp only [guarded]; exact hp, hw, hV⟩, hcount, hok⟩
  · cases he : e.apply s.set with
    | none =>
      have : s.stepMutator = { s with prog := [] } := by simp [Sys.stepMutator, hp, he]
      rw [this]
      exact ⟨Or.inr (Or.inr (Or.inr ⟨rfl, hw, hr, hV _ (mem_versions_self _ _)⟩)), hcount, hok⟩
    | some set1 =>
      have : s.stepMutator = { s with set := set1, prog := .unlock :: guarded es } := by
        simp [Sys.stepMutator, hp, he]
      rw [this]
      refine ⟨Or.inr (Or.inr (Or.inl ⟨es, rfl, hw, hr, ?_⟩)), hcount, ?_⟩
      · intro v hv
        apply hV
        simp only [versions, he, List.mem_cons]
        exact Or.inr hv
      · intro j r hj
        have hc : critCount s.gets = 0 := by rw [← hcount]; exact hr
        exact (hok j r hj).of_not_critical (critCount_zero s.gets hc j r hj) set1
  · have : s.stepMutator = { s with writer := false, prog := guarded es } := by
      simp [Sys.stepMutator, hp]
    rw [this]
    exact ⟨Or.inl ⟨es, rfl, rfl, hV⟩, hcount, hok⟩
  · have : s.stepMutator = s := by simp [Sys.stepMutator, hp]
    rw [this]
    exact ⟨Or.inr (Or.inr (Or.inr ⟨hp, hw, hr, hV⟩)), hcount, hok⟩

theorem Shape_of_readers_pos {V : List Ptr → Prop} {s : Sys} (h : s.Shape V)
    (hpos : s.readers ≠ 0 ∨ s.writer = false) :
    ∃ es, s.prog = guarded es ∧ s.writer = false ∧ ∀ v ∈ versions s.set es, V v := by
  rcases h with h | ⟨e, es, _, hw, hr, _⟩ | ⟨es, _, hw, hr, _⟩ | ⟨_, hw, hr, _⟩
  · exact h
  · rcases hpos with h | h
    · exact absurd hr h
    · rw [hw] at h; exact Bool.noConfusion h
  · rcases hpos with h | h
    · exact absurd hr h
    · rw [hw] at h; exact Bool.noConfusion h
  · rcases hpos with h | h
    · exact absurd hr h
    · rw [hw] at h; exact Bool.noConfusion h

theorem Inv_stepGetter {V : List Ptr → Prop} {heap : Heap} {s : Sys} (h : s.Inv V heap)
    (j : Nat) : (s.stepGetter heap j).Inv V heap := by
  obtain ⟨hshape, hcount, hok⟩ := h
  cases hj : s.gets[j]? with
  | none =>
    have : s.stepGetter heap j = s := by simp [Sys.stepGetter, hj]
    rw [this]; exact ⟨hshape, hcount, hok⟩
  | some r =>
    have hr := hok j r hj
    cases r with
    | start =>
      by_cases hw : s.writer = false
      · have : s.stepGetter heap j
            = { s with readers := s.readers + 1, gets := s.gets.set j .locked } := by
          simp [Sys.stepGetter, hj, hw]
        rw [this]
        obtain ⟨es, hp, _, hV⟩ := Shape_of_readers_pos hshape (Or.inr hw)
        refine ⟨Or.inl ⟨es, hp, hw, hV⟩, ?_, ok_set hok j _ trivial⟩
        have := critCount_set s.gets j _ .locked hj
        simp [Reader.critical] at this
        simp only
        omega
      · have : s.stepGetter heap j = s := by simp [Sys.stepGetter, hj, hw]
        rw [this]; exact ⟨hshape, hcount, hok⟩
    | locked =>
      have : s.stepGetter heap j = { s with gets := s.gets.set j (.made s.set.length) } := by
        simp [Sys.stepGetter, hj]
      rw [this]
      refine ⟨hshape, ?_, ok_set hok j _ rfl⟩
      have := critCount_set s.gets j _ (.made s.set.length) hj
      simp [Reader.critical] at this
      simp only
      omega
    | made n =>
      have : s.stepGetter heap j = { s with gets := s.gets.set j (.ranging n s.set) } := by
        simp [Sys.stepGetter, hj]
      rw [this]
      refine ⟨hshape, ?_, ok_set hok j _ ⟨hr, rfl⟩⟩
      have := critCount_set s.gets j _ (.ranging n s.set) hj
      simp [Reader.critical] at this
      simp only
      omega
    | ranging n hdr =>
      have : s.stepGetter heap j
          = { s with gets := s.gets.set j (.copied (s.set.map (load heap))) } := by
        obtain ⟨h1, h2⟩ := hr
        simp [Sys.stepGetter, hj, Reader.copy, h1, h2]
      rw [this]
      refine ⟨hshape, ?_, ok_set hok j _ rfl⟩
      have := critCount_set s.gets j _ (.copied (s.set.map (load heap))) hj
      simp [Reader.critical] at this
      simp only
      omega
    | copied out =>
      have : s.stepGetter heap j
          = { s with readers := s.readers - 1, gets := s.gets.set j (.returned out) } := by
        simp [Sys.stepGetter, hj]
      rw [this]
      have hc := critCount_set s.gets j _ (.returned out) hj
      simp [Reader.critical] at hc
      have hpos : s.readers ≠ 0 := by omega
      obtain ⟨es, hp, hw, hV⟩ := Shape_of_readers_pos hshape (Or.inl hpos)
      refine ⟨Or.inl ⟨es, hp, hw, hV⟩, ?_, ok_set hok j _ ⟨s.set, hshape.allowed, hr⟩⟩
      simp only
      omega
    | failing => exact absurd hr (by simp [Reader.Ok])
    | returned out =>
      have : s.stepGetter heap j = s := by simp [Sys.stepGetter, hj]
      rw [this]; exact ⟨hshape, hcount, hok⟩
    | panicked => exact absurd hr (by simp [Reader.Ok])

theorem Inv_run {V : List Ptr → Prop} {heap : Heap} (sched : List Tid) {s : Sys}
    (h : s.Inv V heap) : (Sys.run heap s sched).Inv V heap := by
  induction sched generalizing s with
  | nil => exact h
  | cons t rest ih =>
    simp only [Sys.run, List.foldl_cons]
    apply ih
    cases t with
    | mutator => exact Inv_stepMutator h
    | getter j => exact Inv_stepGetter h j

theorem critCount_replicate_start (k : Nat) : critCount (List.replicate k Reader.start) = 0 := by
  induction k with
  | zero => rfl
  | succ k ih => simp [List.replicate_succ, critCount, Reader.critical, ih]

theorem Inv_init (heap : Heap) (old : List Ptr) (es : List Effect) (k : Nat) :
    (Sys.init old (guarded es) k).Inv (fun v => v ∈ versions old es) heap := by
  refine ⟨Or.inl ⟨es, rfl, rfl, fun v hv => hv⟩, (critCount_replicate_start k).symm, ?_⟩
  intro j r hj
  have := List.getElem?_mem hj
  rw [List.eq_of_mem_replicate this]
  trivial

/-- Whatever the schedule, a `get` that has returned holds the snapshot of one
of the values `ps.set` takes between the critical sections of the mutating
goroutine, and no `get` panics. -/
theorem readers_see_versions (heap : Heap) (old : List Ptr) (es : List Effect) (k : Nat)
    (sched : List Tid) (j : Nat) (r : Reader)
    (hj : (Sys.run heap (Sys.init old (guarded es) k) sched).gets[j]? = some r) :
    r ≠ .failing ∧ r ≠ .panicked
      ∧ ∀ out, r = .returned out → ∃ v ∈ versions old es, out = v.map (load heap) := by
  have hinv := Inv_run sched (Inv_init heap old es k)
  have hr := hinv.ok j r hj
  cases r <;> simp_all [Reader.Ok]

theorem addProg_eq (pSet : List Ptr) : addProg pSet = guarded (pSet.map Effect.append) := by
  induction pSet with
  | nil => rfl
  | cons p rest ih => simp [addProg, guarded, ih]

theorem versions_append (old pSet : List Ptr) :
    ∀ v ∈ versions old (pSet.map Effect.append), ∃ n, n ≤ pSet.length ∧ v = old ++ pSet.take n := by
  induction pSet generalizing old with
  | nil =>
    intro v hv
    simp only [List.map_nil, versions, List.mem_singleton] at hv
    exact ⟨0, Nat.le_refl _, by simp [hv]⟩
  | cons p rest ih =>
    intro v hv
    simp only [List.map_cons, versions, Effect.apply, List.mem_cons] at hv
    rcases hv with hv | hv
    · exact ⟨0, Nat.zero_le _, by simp [hv]⟩
    · obtain ⟨n, hn, hv2⟩ := ih (old ++ [p]) v hv
      refine ⟨n + 1, by simp only [List.length_cons]; omega, ?_⟩
      rw [hv2]
      simp

/-! ## Every `get` can return -/

theorem stepMutator_gets (s : Sys) : s.stepMutator.gets = s.gets := by
  unfold Sys.stepMutator
  split
  · rfl
  · split <;> rfl
  · rfl
  · split <;> rfl

theorem stepMutator_prog_subset (s : Sys) : ∀ i ∈ s.stepMutator.prog, i ∈ s.prog := by
  intro i hi
  unfold Sys.stepMutator at hi
  split at hi
  · exact hi
  · rename_i rest heq
    split at hi
    · rw [heq]; exact List.mem_cons_of_mem _ hi
    · exact hi
  · rename_i rest heq
    rw [heq]; exact List.mem_cons_of_mem _ hi
  · rename_i e rest heq
    split at hi
    · rw [heq]; exact List.mem_cons_of_mem _ hi
    · simp at hi

theorem stepGetter_frame (heap : Heap) (s : Sys) (j : Nat) :
    (s.stepGetter heap j).prog = s.prog ∧ (s.stepGetter heap j).writer = s.writer
      ∧ (s.stepGetter heap j).set = s.set
      ∧ (s.stepGetter heap j).gets.length = s.gets.length := by
  unfold Sys.stepGetter
  split
  · exact ⟨rfl, rfl, rfl, rfl⟩
  · split
    · exact ⟨rfl, rfl, rfl, by simp⟩
    · exact ⟨rfl, rfl, rfl, rfl⟩
  all_goals first | exact ⟨rfl, rfl, rfl, rfl⟩ | exact ⟨rfl, rfl, rfl, by simp⟩

theorem Live_step {V : List Ptr → Prop} {heap : Heap} {k : Nat} {s : Sys}
    (h : s.Live V heap k) (t : Tid) : (Sys.step heap s t).Live V heap k := by
  obtain ⟨hinv, htot, hq, hlen⟩ := h
  cases t with
  | mutator =>
    refine ⟨Inv_stepMutator hinv, ?_, ?_, ?_⟩
    · intro e he
      exact htot e (stepMutator_prog_subset s _ he)
    · rcases hinv.shape with ⟨es, hp, hw, _⟩ | ⟨e, es, hp, hw, _, _⟩ | ⟨es, hp, hw, _, _⟩
        | ⟨hp, hw, _, _⟩
      · cases es with
        | nil =>
          have : s.stepMutator = s := by simp [Sys.stepMutator, hp, guarded]
          simp only [Sys.step, this]; exact hq
        | cons e es1 =>
          simp only [guarded] at hp
          simp only [Sys.step, Sys.stepMutator, hp, hw]
          split
          · simp
          · simp [hp]
      · have he : e.apply s.set ≠ none := htot e (by rw [hp]; exact List.mem_cons_self _ _) s.set
        cases hes : e.apply s.set with
        | none => exact absurd hes he
        | some set1 => simp [Sys.step, Sys.stepMutator, hp, hes]
      · simp [Sys.step, Sys.stepMutator, hp]
      · exact absurd ⟨hp, hw⟩ hq
    · simp only [Sys.step, stepMutator_gets]; exact hlen
  | getter j =>
    obtain ⟨f1, f2, _, f4⟩ := stepGetter_frame heap s j
    refine ⟨Inv_stepGetter hinv j, ?_, ?_, ?_⟩
    · intro e he
      simp only [Sys.step, f1] at he
      exact htot e he
    · simp only [Sys.step, f1, f2]; exact hq
    · simp only [Sys.step, f4]; exact hlen

theorem Live_run {V : List Ptr → Prop} {heap : Heap} {k : Nat} (sched : List Tid) {s : Sys}
    (h : s.Live V heap k) : (Sys.run heap s sched).Live V heap k := by
  induction sched generalizing s with
  | nil => exact h
  | cons t rest ih =>
    simp only [Sys.run, List.foldl_cons]
    exact ih (Live_step h t)

theorem run_append_sched (heap : Heap) (s : Sys) (a b : List Tid) :
    Sys.run heap s (a ++ b) = Sys.run heap (Sys.run heap s a) b := by
  simp [Sys.run, List.foldl_append]

theorem mutator_unlocks {V : List Ptr → Prop} {heap : Heap} {k : Nat} {s : Sys}
    (h : s.Live V heap k) :
    ∃ m, (Sys.run heap s (List.replicate m .mutator)).writer = false
      ∧ (Sys.run heap s (List.replicate m .mutator)).gets = s.gets := by
  obtain ⟨hinv, htot, hq, _⟩ := h
  rcases hinv.shape with ⟨es, hp, hw, _⟩ | ⟨e, es, hp, hw, _, _⟩ | ⟨es, hp, hw, _, _⟩
    | ⟨hp, hw, _, _⟩
  · exact ⟨0, hw, rfl⟩
  · have he : e.apply s.set ≠ none := htot e (by rw [hp]; exact List.mem_cons_self _ _) s.set
    cases hes : e.apply s.set with
    | none => exact absurd hes he
    | some set1 =>
      refine ⟨2, ?_, ?_⟩ <;>
        simp [Sys.run, Sys.step, Sys.stepMutator, hp, hes, List.replicate]
  · refine ⟨1, ?_, ?_⟩ <;> simp [Sys.run, Sys.step, Sys.stepMutator, hp, List.replicate]
  · exact absurd ⟨hp, hw⟩ hq

theorem getter_step_left {V : List Ptr → Prop} {heap : Heap} {s : Sys} (hinv : s.Inv V heap)
    (hw : s.writer = false) (j : Nat) (r : Reader) (hj : s.gets[j]? = some r) :
    ∃ r1, (s.stepGetter heap j).gets[j]? = some r1 ∧ r1.left = r.left - 1 := by
  have hok := hinv.ok j r hj
  have hlt : j < s.gets.length := (List.getElem?_eq_some.mp hj).1
  cases r with
  | start =>
    exact ⟨.locked, by simp [Sys.stepGetter, hj, hw, List.getElem?_set, hlt], rfl⟩
  | locked =>
    exact ⟨.made s.set.length, by simp [Sys.stepGetter, hj, List.getElem?_set, hlt], rfl⟩
  | made n =>
    exact ⟨.ranging n s.set, by simp [Sys.stepGetter, hj, List.getElem?_set, hlt], rfl⟩
  | ranging n hdr =>
    obtain ⟨h1, h2⟩ := hok
    exact ⟨.copied (s.set.map (load heap)),
      by simp [Sys.stepGetter, hj, List.getElem?_set, hlt, Reader.copy, h1, h2], rfl⟩
  | copied out =>
    exact ⟨.returned out, by simp [Sys.stepGetter, hj, List.getElem?_set, hlt], rfl⟩
  | failing => exact absurd hok (by simp [Reader.Ok])
  | returned out => exact ⟨.returned out, by simp [Sys.stepGetter, hj], rfl⟩
  | panicked => exact absurd hok (by simp [Reader.Ok])

theorem getter_finishes {V : List Ptr → Prop} {heap : Heap} (n : Nat) {s : Sys}
    (hinv : s.Inv V heap) (hw : s.writer = false) (j : Nat) (r : Reader)
    (hj : s.gets[j]? = some r) (hn : r.left ≤ n) :
    ∃ out, (Sys.run heap s (List.replicate n (.getter j))).gets[j]? = some (.returned out) := by
  induction n generalizing s r with
  | zero =>
    have hok := hinv.ok j r hj
    cases r <;> simp_all [Reader.left, Reader.Ok, Sys.run]
  | succ n ih =>
    obtain ⟨r1, h1, h2⟩ := getter_step_left hinv hw j r hj
    have hw1 : (s.stepGetter heap j).writer = false := by
      rw [(stepGetter_frame heap s j).2.1]; exact hw
    have := ih (Inv_stepGetter hinv j) hw1 r1 h1 (by omega)
    simpa [Sys.run, List.replicate, Sys.step] using this

/-- From every state a schedule leads to, when the mutating goroutine cannot
panic, each `get` goroutine can be scheduled so that it returns. -/
theorem get_can_return {V : List Ptr → Prop} {heap : Heap} {k : Nat} {s : Sys}
    (h : s.Live V heap k) (j : Nat) (hj : j < k) :
    ∃ more out, (Sys.run heap s more).gets[j]? = some (.returned out) := by
  obtain ⟨m, hm1, hm2⟩ := mutator_unlocks h
  have hlive := Live_run (List.replicate m .mutator) h
  have hlen : j < (Sys.run heap s (List.replicate m .mutator)).gets.length := by
    rw [hlive.2.2.2]; exact hj
  obtain ⟨out, hout⟩ := getter_finishes 5 hlive.1 hm1 j _ (List.getElem?_eq_getElem hlen)
    (by cases (Sys.run heap s (List.replicate m .mutator)).gets[j] <;> simp [Reader.left])
  exact ⟨List.replicate m .mutator ++ List.replicate 5 (.getter j), out,
    by rw [run_append_sched]; exact hout⟩

theorem Live_init (heap : Heap) (old : List Ptr) (es : List Effect) (k : Nat)
    (htot : ∀ e ∈ es, ∀ set, e.apply set ≠ none) :
    (Sys.init old (guarded es) k).Live (fun v => v ∈ versions old es) heap k := by
  refine ⟨Inv_init heap old es k, ?_, ?_, by simp [Sys.init]⟩
  · intro e he
    apply htot e
    simp only [Sys.init] at he
    clear htot
    induction es with
    | nil => simp [guarded] at he
    | cons e1 es1 ih =>
      simp only [guarded, List.mem_cons, Instr.run.injEq] at he
      rcases he with he | he | he | he
      · exact Instr.noConfusion he
      · rw [he]; exact List.mem_cons_self _ _
      · exact Instr.noConfusion he
      · exact List.mem_cons_of_mem _ (ih he)
  · intro h
    simp [Sys.init] at h

/-! ## `with`, `add` and `remove` against concurrent `get` calls -/

theorem withProg_eq (set : List Ptr) : withProg set = guarded [.assign set] := rfl

theorem removeProg_eq (pSet : List Ptr) : removeProg pSet = guarded [.removeAll pSet] := rfl

theorem assign_total (new : List Ptr) :
    ∀ e ∈ [Effect.assign new], ∀ set, e.apply set ≠ none := by
  intro e he set
  simp only [List.mem_singleton] at he
  subst he
  simp [Effect.apply]

/-- C13: `With(ps...)` running concurrently with `k` calls of `get`, from a
state whose handles point to allocated cells.  Under every schedule of the
steps, a `get` never panics and what it has returned is the snapshot before
the call or `ps`; and from wherever the schedule has led, every `get` can be
scheduled to return. -/
theorem With_atomic_for_readers (w : World) (hw : w.WF) (ps : List Processor) (k : Nat)
    (sched : List Tid) (j : Nat) (hj : j < k) :
    (∀ r, (Sys.run (Errors.With w ps).heap
            (Sys.init w.e.processors.set (withProg (Errors.With w ps).e.processors.set) k)
            sched).gets[j]? = some r →
        r ≠ .failing ∧ r ≠ .panicked
          ∧ ∀ out, r = .returned out → out = w.get ∨ out = ps)
      ∧ ∃ more out, (Sys.run (Errors.With w ps).heap
            (Sys.init w.e.processors.set (withProg (Errors.With w ps).e.processors.set) k)
            (sched ++ more)).gets[j]? = some (.returned out) := by
  constructor
  · intro r hr
    rw [withProg_eq] at hr
    obtain ⟨h1, h2, h3⟩ := readers_see_versions _ _ _ _ _ _ _ hr
    refine ⟨h1, h2, ?_⟩
    intro out hout
    obtain ⟨v, hv, hvo⟩ := h3 out hout
    simp only [versions, Effect.apply, List.mem_cons, List.mem_singleton, List.not_mem_nil,
      or_false] at hv
    rcases hv with hv | hv
    · left
      rw [hvo, hv]
      exact get_append_heap w hw ps
    · right
      rw [hvo, hv]
      exact get_With w ps
  · rw [withProg_eq]
    have hlive := Live_run sched (Live_init (Errors.With w ps).heap w.e.processors.set
      [.assign (Errors.With w ps).e.processors.set] k (assign_total _))
    obtain ⟨more, out, h⟩ := get_can_return hlive j hj
    exact ⟨more, out, by rw [run_append_sched]; exact h⟩

theorem With_atomic_for_readers_witness :
    (NewErrors [5]).WF ∧ 0 < 2
      ∧ (Sys.run (Errors.With (NewErrors [5]) [6, 7]).heap
            (Sys.init (NewErrors [5]).e.processors.set
              (withProg (Errors.With (NewErrors [5]) [6, 7]).e.processors.set) 2)
            [.getter 1, .mutator, .getter 1, .getter 1, .getter 1, .getter 1, .mutator,
              .mutator, .mutator, .getter 0, .getter 0, .getter 0, .getter 0,
              .getter 0]).gets[0]? = some (.returned [6, 7])
      ∧ ([6, 7] = (NewErrors [5]).get ∨ ([6, 7] : List Processor) = [6, 7]) :=
  ⟨by decide, by decide, by decide,
    ((With_atomic_for_readers (NewErrors [5]) (by decide) [6, 7] 2
      [.getter 1, .mutator, .getter 1, .getter 1, .getter 1, .getter 1, .mutator,
        .mutator, .mutator, .getter 0, .getter 0, .getter 0, .getter 0, .getter 0]
      0 (by decide)).1 (.returned [6, 7]) (by decide)).2.2 [6, 7] rfl⟩

/-- C14: the code at one call `add(h0, h1)` on the empty registry with one
concurrent `get`.  With the handles `[0, 1]` on cells holding processors 7 and
8 (the call `Use(7, 8)` makes with one loop variable per iteration): after the
first three steps of `add` the handle `h0` is appended, no lock is held and
`add` has still to take the lock again to append `h1`; a `get` that runs then
returns `[7]`, which is neither the snapshot before `add` nor the one after it.
With the handles `[0, 0]` on one cell holding processor 8 (the call `Use(7, 8)`
makes with one loop variable per loop) the same schedule returns `[8]`, one of
the two entries. -/
theorem add_reader_sees_proper_prefix :
    (Sys.run [7, 8] (Sys.init [] (addProg [0, 1]) 1) [.mutator, .mutator, .mutator]).writer
        = false
      ∧ (Sys.run [7, 8] (Sys.init [] (addProg [0, 1]) 1) [.mutator, .mutator, .mutator]).prog
          = [.lock, .run (.append 1), .unlock]
      ∧ (Sys.run [7, 8] (Sys.init [] (addProg [0, 1]) 1)
          [.mutator, .mutator, .mutator, .getter 0, .getter 0, .getter 0, .getter 0,
            .getter 0, .mutator, .mutator, .mutator]).gets = [.returned [7]]
      ∧ ([7] : List Processor) ≠ ([] : List Ptr).map (load [7, 8])
      ∧ ([7] : List Processor) ≠ ([0, 1] : List Ptr).map (load [7, 8])
      ∧ (Errors.Use .perIteration (NewErrors []) [7, 8]).2 = [0, 1]
      ∧ (Errors.Use .perIteration (NewErrors []) [7, 8]).1.heap = [7, 8]
      ∧ (Errors.Use .perLoop (NewErrors []) [7, 8]).2 = [0, 0]
      ∧ (Errors.Use .perLoop (NewErrors []) [7, 8]).1.heap = [8]
      ∧ (Sys.run [8] (Sys.init [] (addProg [0, 0]) 1)
          [.mutator, .mutator, .mutator, .getter 0, .getter 0, .getter 0, .getter 0,
            .getter 0, .mutator, .mutator, .mutator]).gets = [.returned [8]]
      ∧ ([8] : List Processor) ≠ ([] : List Ptr).map (load [8])
      ∧ ([8] : List Processor) ≠ ([0, 0] : List Ptr).map (load [8]) := by
  decide

/-- What a `get` holds once it has returned, under every schedule.  Next to one
`with` or one `remove` call, which take the lock once for the whole call, it is
the snapshot of the list before the call or of the list after it; next to one
`add` call, which takes the lock once for every handle, it is the snapshot of
the list before the call followed by the first `n` of the handles passed, for
some `n` from 0 to their number.  No `get` panics.  That a `get` does return is
`with_add_readers_can_return`. -/
theorem mutators_seen_by_readers (heap : Heap) (old : List Ptr) (k : Nat) (sched : List Tid)
    (j : Nat) (r : Reader) :
    (∀ new, (Sys.run heap (Sys.init old (withProg new) k) sched).gets[j]? = some r →
        r ≠ .failing ∧ r ≠ .panicked
          ∧ ∀ out, r = .returned out →
              out = old.map (load heap) ∨ out = new.map (load heap))
      ∧ (∀ pSet, (Sys.run heap (Sys.init old (removeProg pSet) k) sched).gets[j]? = some r →
        r ≠ .failing ∧ r ≠ .panicked
          ∧ ∀ out, r = .returned out →
              out = old.map (load heap)
                ∨ ∃ ps1, (processors.mk old).remove pSet = some ps1
                    ∧ out = ps1.set.map (load heap))
      ∧ (∀ pSet, (Sys.run heap (Sys.init old (addProg pSet) k) sched).gets[j]? = some r →
        r ≠ .failing ∧ r ≠ .panicked
          ∧ ∀ out, r = .returned out →
              ∃ n, n ≤ pSet.length ∧ out = (old ++ pSet.take n).map (load heap)) := by
  refine ⟨?_, ?_, ?_⟩
  · intro new hr
    rw [withProg_eq] at hr
    obtain ⟨h1, h2, h3⟩ := readers_see_versions _ _ _ _ _ _ _ hr
    refine ⟨h1, h2, ?_⟩
    intro out hout
    obtain ⟨v, hv, hvo⟩ := h3 out hout
    simp only [versions, Effect.apply, List.mem_cons, List.mem_singleton, List.not_mem_nil,
      or_false] at hv
    rcases hv with hv | hv
    · left; rw [hvo, hv]
    · right; rw [hvo, hv]
  · intro pSet hr
    rw [removeProg_eq] at hr
    obtain ⟨h1, h2, h3⟩ := readers_see_versions _ _ _ _ _ _ _ hr
    refine ⟨h1, h2, ?_⟩
    intro out hout
    obtain ⟨v, hv, hvo⟩ := h3 out hout
    simp only [versions, Effect.apply, List.mem_cons] at hv
    rcases hv with hv | hv
    · left; rw [hvo, hv]
    · right
      cases hrem : removeLoop pSet (buildHash old 0 (fun _ => none)) old with
      | none => simp [hrem] at hv
      | some set1 =>
        simp only [hrem, List.mem_singleton] at hv
        exact ⟨{ set := set1 }, by simp [processors.remove, hrem], by rw [hvo, hv]⟩
  · intro pSet hr
    rw [addProg_eq] at hr
    obtain ⟨h1, h2, h3⟩ := readers_see_versions _ _ _ _ _ _ _ hr
    refine ⟨h1, h2, ?_⟩
    intro out hout
    obtain ⟨v, hv, hvo⟩ := h3 out hout
    obtain ⟨n, hn, hvn⟩ := versions_append old pSet v hv
    exact ⟨n, hn, by rw [hvo, hvn]⟩

theorem mutators_seen_by_readers_witness :
    (Sys.run [7, 8] (Sys.init [] (addProg [0, 1]) 1)
        [.mutator, .mutator, .mutator, .getter 0, .getter 0, .getter 0, .getter 0,
          .getter 0]).gets[0]? = some (.returned [7])
      ∧ ∃ n, n ≤ ([0, 1] : List Ptr).length
          ∧ ([7] : List Processor) = (([] : List Ptr) ++ ([0, 1] : List Ptr).take n).map
              (load [7, 8]) :=
  ⟨by decide,
    ((mutators_seen_by_readers [7, 8] [] 1
      [.mutator, .mutator, .mutator, .getter 0, .getter 0, .getter 0, .getter 0, .getter 0]
      0 (.returned [7])).2.2 [0, 1] (by decide)).2.2 [7] rfl⟩

theorem append_total (pSet : List Ptr) :
    ∀ e ∈ pSet.map Effect.append, ∀ set, e.apply set ≠ none := by
  intro e he set
  simp only [List.mem_map] at he
  obtain ⟨p, _, hp⟩ := he
  subst hp
  simp [Effect.apply]

/-- Next to one `with` call or one `add` call, from wherever a schedule has
led, every `get` can be scheduled so that it returns. -/
theorem with_add_readers_can_return (heap : Heap) (old : List Ptr) (k : Nat)
    (sched : List Tid) (j : Nat) (hj : j < k) :
    (∀ new, ∃ more out, (Sys.run heap (Sys.init old (withProg new) k)
        (sched ++ more)).gets[j]? = some (.returned out))
      ∧ (∀ pSet, ∃ more out, (Sys.run heap (Sys.init old (addProg pSet) k)
        (sched ++ more)).gets[j]? = some (.returned out)) := by
  constructor
  · intro new
    rw [withProg_eq]
    have hlive := Live_run sched (Live_init heap old [.assign new] k (assign_total new))
    obtain ⟨more, out, h⟩ := get_can_return hlive j hj
    exact ⟨more, out, by rw [run_append_sched]; exact h⟩
  · intro pSet
    rw [addProg_eq]
    have hlive := Live_run sched
      (Live_init heap old (pSet.map Effect.append) k (append_total pSet))
    obtain ⟨more, out, h⟩ := get_can_return hlive j hj
    exact ⟨more, out, by rw [run_append_sched]; exact h⟩

/-- After `remove(0, 0)` on the list `[0]` has panicked, the write lock stays
held: a `get` then waits at `RLock` whatever number of steps it is given. -/
theorem remove_panic_blocks_get :
    (Sys.run [7] (Sys.init [0] (removeProg [0, 0]) 1) [.mutator, .mutator, .mutator]).writer
        = true
      ∧ (Sys.run [7] (Sys.init [0] (removeProg [0, 0]) 1)
          [.mutator, .mutator, .mutator, .getter 0, .getter 0, .getter 0, .getter 0,
            .getter 0]).gets = [.start] := by
  decide

end GoErrors
